import Mathlib

/-!
Verification development for the babybot sandbox-orchestration core:
shallow embeddings of `group-queue.ts`, `container-runner.ts`,
`mount-security.ts` and the IPC watcher, with theorems settling the
frozen specification claims.
-/

namespace BabyBot

/-! ## GroupQueue constants (`src/group-queue.ts`, lines 7-8) -/

def MAX_RETRIES : Nat := 5

def BASE_RETRY_MS : Nat := 5000

/-- Embedding of `GroupQueue.scheduleRetry` (`group-queue.ts` 157-176) acting on
the group's `retryCount`.  Returns the new `retryCount` together with the
backoff delay of the scheduled retry, or `none` when the retry ceiling is
exceeded and no retry is scheduled. -/
def scheduleRetry (retryCount : Nat) : Nat × Option Nat :=
  let rc := retryCount + 1
  if rc > MAX_RETRIES then (0, none)
  else (rc, some (BASE_RETRY_MS * 2 ^ (rc - 1)))

/-! ## Task / group snapshots (`container-runner.ts` 509-545) -/

structure TaskSnapshot where
  id : Nat
  groupFolder : String
  prompt : String
  schedule_type : String
  schedule_value : String
  status : String
  next_run : Option String
deriving DecidableEq, Repr

structure AvailableGroup where
  jid : String
  name : String
  lastActivity : String
  isRegistered : Bool
deriving DecidableEq, Repr

/-- Embedding of `writeTasksSnapshot` (`container-runner.ts` 509-522): the
list of tasks written to `current_tasks.json` for the given namespace. -/
def writeTasksSnapshot (groupFolder : String) (isMain : Bool)
    (tasks : List TaskSnapshot) : List TaskSnapshot :=
  if isMain then tasks
  else tasks.filter (fun task => task.groupFolder == groupFolder)

/-- Embedding of `writeGroupsSnapshot` (`container-runner.ts` 524-545): the
`groups` array written to `available_groups.json` for the given namespace. -/
def writeGroupsSnapshot (groupFolder : String) (isMain : Bool)
    (groups : List AvailableGroup) : List AvailableGroup :=
  if isMain then groups else []

/-! ## Container runner data model (`container-runner.ts` 21-74) -/

inductive OutputStatus where
  | success
  | error
deriving DecidableEq, Repr

/-- `ContainerOutput` (`container-runner.ts` 35-40). -/
structure ContainerOutput where
  status : OutputStatus
  result : Option String
  newSessionId : Option String := none
  error : Option String := none
deriving DecidableEq, Repr

/-- `ContainerInput` (`container-runner.ts` 25-33). -/
structure ContainerInput where
  prompt : String
  sessionId : Option String := none
  groupFolder : String
  chatJid : String
  isMain : Bool
  systemPrompt : Option String := none
  queryLoop : Option Bool := none
deriving DecidableEq, Repr

/-! ## Stdin behaviour of `runContainerAgent` (`container-runner.ts` 356-358)

The host writes the serialized input and then ends the stream:
`container.stdin.write(JSON.stringify(input)); container.stdin.end();`
with no branch on `input.queryLoop`.  `serialize` stands for
`JSON.stringify`. -/

inductive StdinAction where
  | write (data : String)
  | close
deriving DecidableEq, Repr

/-- The exact sequence of stdin operations `runContainerAgent` performs on the
spawned child, as a function of the input. -/
def stdinPlan (serialize : ContainerInput → String)
    (input : ContainerInput) : List StdinAction :=
  [StdinAction.write (serialize input), StdinAction.close]

/-! ## Sentinel frame parser (`container-runner.ts` 21-23, 361-406)

The stdout protocol is modelled over `List Char`.  `firstOcc m s` is
JavaScript's `s.indexOf(m)` and `extractLoop` is the `while` loop of the
`data` handler: find a start marker, find the matching end marker, emit the
trimmed text between them, continue after the end marker; when either marker
is missing the whole buffer is retained for the next chunk. -/

def OUTPUT_START_MARKER : List Char := "---BABYBOT_OUTPUT_START---".toList

def OUTPUT_END_MARKER : List Char := "---BABYBOT_OUTPUT_END---".toList

/-- JavaScript `s.indexOf(m)`: index of the first occurrence of `m` in `s`
(`none` for `-1`). -/
def firstOcc (m : List Char) : List Char → Option Nat
  | [] => if m = [] then some 0 else none
  | c :: t =>
    if m.isPrefixOf (c :: t) then some 0
    else (firstOcc m t).map (· + 1)

/-- Whitespace as removed by JavaScript `String.prototype.trim`. -/
def isJsWhitespace (c : Char) : Bool :=
  c == ' ' || c == '\t' || c == '\n' || c == '\r' ||
    c == '\x0b' || c == '\x0c'

/-- JavaScript `s.trim()`. -/
def jsTrim (s : List Char) : List Char :=
  ((s.dropWhile isJsWhitespace).reverse.dropWhile isJsWhitespace).reverse

theorem firstOcc_isPrefix {m s : List Char} {i : Nat}
    (h : firstOcc m s = some i) : m.isPrefixOf (s.drop i) ∧ i + m.length ≤ s.length := by
  induction s generalizing i with
  | nil =>
    by_cases hm : m = ([] : List Char) <;> simp [firstOcc, hm] at h
    subst hm; subst h; simp
  | cons c t ih =>
    by_cases hp : m.isPrefixOf (c :: t)
    · simp [firstOcc, hp] at h
      subst h
      refine ⟨by simpa using hp, ?_⟩
      have := (List.isPrefixOf_iff_prefix.mp hp).length_le
      simp only [List.length_cons] at this ⊢
      omega
    · simp [firstOcc, hp] at h
      obtain ⟨j, hj, rfl⟩ := h
      obtain ⟨h1, h2⟩ := ih hj
      refine ⟨by simpa using h1, ?_⟩
      simp only [List.length_cons]
      omega

theorem firstOcc_append {m s : List Char} {i : Nat}
    (h : firstOcc m s = some i) (u : List Char) :
    firstOcc m (s ++ u) = some i := by
  induction s generalizing i with
  | nil =>
    by_cases hm : m = ([] : List Char) <;> simp [firstOcc, hm] at h
    subst hm; subst h
    cases u with
    | nil => simp [firstOcc]
    | cons c t => simp [firstOcc]
  | cons c t ih =>
    by_cases hp : m.isPrefixOf (c :: t)
    · have hpre : m <+: c :: (t ++ u) := by
        have := (List.isPrefixOf_iff_prefix.mp hp).trans (List.prefix_append (c :: t) u)
        simpa using this
      simp [firstOcc, hp] at h
      subst h
      simp [firstOcc, hpre]
    · simp [firstOcc, hp] at h
      obtain ⟨j, hj, rfl⟩ := h
      have hlen : m.length ≤ t.length := by
        have := (firstOcc_isPrefix hj).2
        omega
      have hp2 : ¬ m <+: c :: (t ++ u) := by
        intro hcon
        apply hp
        refine List.isPrefixOf_iff_prefix.mpr ?_
        have hm : m = (c :: (t ++ u)).take m.length := List.prefix_iff_eq_take.mp hcon
        have htake : (c :: (t ++ u)).take m.length = (c :: t).take m.length := by
          have h1 : ((c :: t) ++ u).take m.length = (c :: t).take m.length :=
            List.take_append_of_le_length (by simpa using Nat.le_succ_of_le hlen)
          simpa using h1
        rw [hm, htake]
        exact List.take_prefix _ _
      simp [firstOcc, hp2, ih hj]

theorem OUTPUT_START_MARKER_length : OUTPUT_START_MARKER.length = 26 := rfl

theorem OUTPUT_END_MARKER_length : OUTPUT_END_MARKER.length = 24 := rfl

/-- The frame-extraction `while` loop of the stdout `data` handler
(`container-runner.ts` 378-405): repeatedly find a start marker, find the
matching end marker after it, emit the trimmed JSON text between them and
continue after the end marker; if either marker is missing, keep the whole
remaining buffer.  Returns (residual buffer, extracted frames in order). -/
def extractLoop (buf : List Char) : List Char × List (List Char) :=
  match h1 : firstOcc OUTPUT_START_MARKER buf with
  | none => (buf, [])
  | some i =>
    match h2 : firstOcc OUTPUT_END_MARKER (buf.drop (i + OUTPUT_START_MARKER.length)) with
    | none => (buf, [])
    | some j =>
      let rest := buf.drop (i + OUTPUT_START_MARKER.length)
      let payload := jsTrim (rest.take j)
      let next := extractLoop (rest.drop (j + OUTPUT_END_MARKER.length))
      (next.1, payload :: next.2)
termination_by buf.length
decreasing_by
  have hb1 := (firstOcc_isPrefix h1).2
  have hb2 := (firstOcc_isPrefix h2).2
  simp only [List.length_drop, OUTPUT_START_MARKER_length, OUTPUT_END_MARKER_length] at hb1 hb2 ⊢
  omega

/-- The per-run streaming parse state: the chunk-assembly buffer
(`parseBuffer`) and the frames delivered to `onOutput` so far, in order. -/
structure StreamState where
  parseBuffer : List Char
  frames : List (List Char)
deriving DecidableEq, Repr

/-- Processing of one stdout `data` chunk (`container-runner.ts` 377-405):
append the chunk to `parseBuffer`, run the extraction loop, deliver the
extracted frames in order. -/
def feedChunk (st : StreamState) (chunk : List Char) : StreamState :=
  let e := extractLoop (st.parseBuffer ++ chunk)
  ⟨e.1, st.frames ++ e.2⟩

/-- A whole stdout stream delivered as successive chunks. -/
def feedChunks (st : StreamState) (chunks : List (List Char)) : StreamState :=
  chunks.foldl feedChunk st

def initStream : StreamState := ⟨[], []⟩

/-- JavaScript `s.lastIndexOf(m)`: the largest index at which `m` occurs. -/
def lastOcc (m s : List Char) : Option Nat :=
  ((List.range (s.length + 1)).filter (fun i => m.isPrefixOf (s.drop i))).max?

/-- `parseContainerOutput` (`container-runner.ts` 480-507).  `jsonParse`
stands for `JSON.parse` on the sliced text (`none` models a parse throw,
caught at 499-506). -/
def parseContainerOutput (jsonParse : List Char → Option ContainerOutput)
    (stdout : List Char) : ContainerOutput :=
  match lastOcc OUTPUT_START_MARKER stdout, lastOcc OUTPUT_END_MARKER stdout with
  | some si, some ei =>
    if si < ei then
      match jsonParse ((stdout.drop (si + OUTPUT_START_MARKER.length)).take
          (ei - (si + OUTPUT_START_MARKER.length))) with
      | some out => out
      | none =>
        { status := OutputStatus.error, result := none,
          error := some "Failed to parse container output" }
    else
      { status := OutputStatus.success, result := some (String.mk (jsTrim stdout)) }
  | _, _ =>
    { status := OutputStatus.success, result := some (String.mk (jsTrim stdout)) }

/-- The `close` handler of `runContainerAgent` (`container-runner.ts`
414-473): the discriminated result the promise resolves with, as a function
of the run's captured state.  `hadStreamingOutput` is true iff at least one
frame was parsed and delivered; `latestSessionId` is the last delivered
session id; `streaming` is whether an `onOutput` callback was supplied. -/
def containerCloseResult (jsonParse : List Char → Option ContainerOutput)
    (timedOut hadStreamingOutput : Bool) (latestSessionId : Option String)
    (code : Int) (stderr : String) (streaming : Bool)
    (stdout : List Char) : ContainerOutput :=
  if timedOut && hadStreamingOutput then
    { status := OutputStatus.success, result := none, newSessionId := latestSessionId }
  else if timedOut then
    { status := OutputStatus.error, result := none,
      error := some "Container execution timeout" }
  else if code ≠ 0 then
    { status := OutputStatus.error, result := none,
      error := some ("Container exited with code " ++ toString code ++ ": " ++ stderr) }
  else if streaming then
    { status := OutputStatus.success, result := none, newSessionId := latestSessionId }
  else parseContainerOutput jsonParse stdout

/-! ## Mount security (`mount-security.ts`)

POSIX path arithmetic is modelled over `List Char`: `resolveSegs cwd p` is
the segment list of Node's `path.resolve(p)` run with current working
directory `cwd` (an absolute path), i.e. make the path absolute and
normalize `.`, `..`, empty segments; `relativePath` is `path.relative`
(which itself resolves both arguments). -/

/-- One step of POSIX path normalization over already-split segments. -/
def normSegsStep (acc : List (List Char)) (seg : List Char) : List (List Char) :=
  if seg = [] ∨ seg = ['.'] then acc
  else if seg = ['.', '.'] then acc.dropLast
  else acc ++ [seg]

def normSegs (segs : List (List Char)) : List (List Char) :=
  segs.foldl normSegsStep []

/-- Segment list of `path.resolve(p)` with current working directory `cwd`. -/
def resolveSegs (cwd p : List Char) : List (List Char) :=
  let full := if p.head? = some '/' then p else cwd ++ '/' :: p
  normSegs (full.splitOn '/')

/-- `path.resolve(p)` with current working directory `cwd`. -/
def resolvePath (cwd p : List Char) : List Char :=
  '/' :: List.intercalate ['/'] (resolveSegs cwd p)

def commonPrefixLen : List (List Char) → List (List Char) → Nat
  | a :: as, b :: bs => if a = b then commonPrefixLen as bs + 1 else 0
  | _, _ => 0

/-- `path.relative(x, y)` (POSIX): resolve both, drop the common segment
prefix, go up with `..` for each remaining source segment, then down the
remaining target segments. -/
def relativePath (cwd x y : List Char) : List Char :=
  let fs := resolveSegs cwd x
  let ts := resolveSegs cwd y
  let c := commonPrefixLen fs ts
  List.intercalate ['/'] (List.replicate (fs.length - c) ['.', '.'] ++ ts.drop c)

/-- `isPathAllowed` (`mount-security.ts` 52-65): the candidate passes iff for
some allowlist entry the relative path from the resolved entry to the
resolved candidate is empty, or neither starts with `".."` nor is absolute. -/
def isPathAllowed (cwd hostPath : List Char) (allowlistPaths : List (List Char)) : Bool :=
  let resolvedHostPath := resolvePath cwd hostPath
  allowlistPaths.any fun allowedPath =>
    let resolvedAllowedPath := resolvePath cwd allowedPath
    let rel := relativePath cwd resolvedAllowedPath resolvedHostPath
    rel == [] || (!(['.', '.'].isPrefixOf rel) && !(['/'].isPrefixOf rel))

/-- The claim's specification reading of `isAllowed`: the canonicalized
candidate equals an allowlist entry or is a path-boundary-respecting
descendant of one (segment-prefix test on canonical paths). -/
def isAllowedSpec (cwd candidate : List Char) (allowlistPaths : List (List Char)) : Bool :=
  allowlistPaths.any fun a =>
    (resolveSegs cwd a).isPrefixOf (resolveSegs cwd candidate)

/-- The amended characterization of `isPathAllowed`: equal to an entry, or a
descendant of one whose first segment below the entry does not itself start
with `".."`. -/
def isAllowedAmended (cwd candidate : List Char) (allowlistPaths : List (List Char)) : Bool :=
  allowlistPaths.any fun a =>
    let as := resolveSegs cwd a
    let hs := resolveSegs cwd candidate
    as == hs ||
      (as.isPrefixOf hs &&
        (match (hs.drop as.length).head? with
          | some seg => !(['.', '.'].isPrefixOf seg)
          | none => false))

/-- One loop iteration of `normalizePaths`: skip falsy (empty) entries,
resolve, insert into the order-preserving set if not already present. -/
def normalizePathsStep (cwd : List Char) (acc : List (List Char)) (p : List Char) :
    List (List Char) :=
  if p = [] then acc
  else if resolvePath cwd p ∈ acc then acc
  else acc ++ [resolvePath cwd p]

/-- `normalizePaths` (`mount-security.ts` 4-13): resolve each entry, skip
falsy (empty) ones, deduplicate preserving first-insertion order. -/
def normalizePaths (cwd : List Char) (paths : List (List Char)) : List (List Char) :=
  paths.foldl (normalizePathsStep cwd) []

/-- `getDefaultAllowlist` (`mount-security.ts` 15-17). -/
def getDefaultAllowlist (cwd projectRoot groupsDir : List Char) : List (List Char) :=
  normalizePaths cwd [projectRoot, groupsDir]

/-- JSON values, for the shape analysis `loadMountAllowlist` performs on the
parsed allowlist file. -/
inductive Json where
  | null
  | bool (b : Bool)
  | num (n : Int)
  | str (s : List Char)
  | arr (elems : List Json)
  | obj (fields : List (List Char × Json))

/-- `parsed.filter((entry) => typeof entry === 'string')`. -/
def jsonStringEntries (elems : List Json) : List (List Char) :=
  elems.filterMap fun j =>
    match j with
    | Json.str s => some s
    | _ => none

/-- JavaScript property lookup (`'paths' in parsed` / `parsed.paths`). -/
def lookupField (fields : List (List Char × Json)) (key : List Char) : Option Json :=
  (fields.find? fun kv => kv.1 == key).map fun kv => kv.2

/-- `loadMountAllowlist` (`mount-security.ts` 19-50).  The file system and
`JSON.parse` are abstracted into `file`: `none` = file missing
(`fs.existsSync` false); `some (Except.error ())` = read or JSON parse threw;
`some (Except.ok j)` = the parsed JSON value. -/
def loadMountAllowlist (cwd : List Char) (file : Option (Except Unit Json))
    (fallbackPaths : List (List Char)) : List (List Char) :=
  let fallback := normalizePaths cwd fallbackPaths
  match file with
  | none => fallback
  | some (Except.error _) => fallback
  | some (Except.ok parsed) =>
    match parsed with
    | Json.arr elems =>
      let list := normalizePaths cwd (jsonStringEntries elems)
      if list.length > 0 then list else fallback
    | Json.obj fields =>
      match lookupField fields ("paths".toList) with
      | some (Json.arr elems) =>
        let list := normalizePaths cwd (jsonStringEntries elems)
        if list.length > 0 then list else fallback
      | some _ => fallback
      | none => fallback
    | _ => fallback

/-! ## GroupQueue state machine (`src/group-queue.ts`)

The orchestrator runs on a single event loop; the suspension point of
`runForGroup` is the `await` of the processing callback.  The model is an
event-step system: an `enqueue g` event is a call of `enqueueMessageCheck`,
and a `complete g ok` event is the resumption of an in-flight run of
`runForGroup` for `g` (the code after the `await`: retry bookkeeping, the
`finally` block, and `drainGroup`).  Each event runs synchronously to
completion.  The synchronous prefix of `runForGroup` (mark active, clear
the pending flag, bump the counter) is `startRun`; every invocation of
`runForGroup` is recorded as `(group, state.active at the call)`.
`inflight` is model bookkeeping counting runs started but not completed;
the `setTimeout` of `scheduleRetry` and of retries simply makes some later
`enqueue` event, which arbitrary event traces already cover. -/

/-- Per-group state (`group-queue.ts` 10-17), plus the `inflight` ghost
counter. -/
structure GState where
  active : Bool := false
  pendingMessages : Bool := false
  groupFolder : Option String := none
  containerName : Option String := none
  retryCount : Nat := 0
  inflight : Nat := 0
deriving DecidableEq, Repr

/-- Queue-wide state (`group-queue.ts` 19-22): the per-group map (lazily
created entries modelled as a total map with default initial state), the
FIFO wait list, and the global active counter. -/
structure QueueState where
  groups : String → GState
  waitingGroups : List String
  activeCount : Nat

def updG (f : String → GState) (k : String) (v : GState) : String → GState :=
  fun x => if x = k then v else f x

def initQueue : QueueState :=
  { groups := fun _ => {}, waitingGroups := [], activeCount := 0 }

/-- An invocation of `runForGroup`: the group and the value of
`state.active` at the moment of the call. -/
abbrev Invocation := String × Bool

/-- The effect of the synchronous prefix of `runForGroup` on a group's
state: mark active, clear the pending flag, one more run in flight. -/
def startG (st : GState) : GState :=
  { st with active := true, pendingMessages := false, inflight := st.inflight + 1 }

/-- Setting a group's pending flag (`state.pendingMessages = true`). -/
def pendG (st : GState) : GState :=
  { st with pendingMessages := true }

/-- The synchronous prefix of `runForGroup` (`group-queue.ts` 123-126). -/
def startRun (s : QueueState) (g : String) : QueueState × Invocation :=
  let st := s.groups g
  ({ s with groups := updG s.groups g (startG st), activeCount := s.activeCount + 1 },
    (g, st.active))

/-- `enqueueMessageCheck` (`group-queue.ts` 46-68), parameterized by
`MAX_CONCURRENT_CONTAINERS`. -/
def enqueueMessageCheck (maxc : Nat) (s : QueueState) (g : String) :
    QueueState × List Invocation :=
  let st := s.groups g
  if st.active then
    ({ s with groups := updG s.groups g (pendG st) }, [])
  else if maxc ≤ s.activeCount then
    let w := if g ∈ s.waitingGroups then s.waitingGroups else s.waitingGroups ++ [g]
    ({ s with groups := updG s.groups g (pendG st), waitingGroups := w }, [])
  else
    let r := startRun s g
    (r.1, [r.2])

/-- The `while` loop of `drainWaiting` (`group-queue.ts` 187-199), threading
the group map, the counter and the remaining wait list. -/
def drainWaitingAux (maxc : Nat) (gs : String → GState) (cnt : Nat) :
    List String → (String → GState) × Nat × List String × List Invocation
  | [] => (gs, cnt, [], [])
  | g :: rest =>
    if cnt < maxc then
      let st := gs g
      if st.pendingMessages then
        let r := drainWaitingAux maxc (updG gs g (startG st)) (cnt + 1) rest
        (r.1, r.2.1, r.2.2.1, (g, st.active) :: r.2.2.2)
      else
        drainWaitingAux maxc gs cnt rest
    else (gs, cnt, g :: rest, [])

/-- The effect of the `finally` block of `runForGroup` on a group's state
(`group-queue.ts` 148-151), with the retry count decided by the preceding
try-part. -/
def finishG (st : GState) (rc : Nat) : GState :=
  { active := false, pendingMessages := st.pendingMessages, groupFolder := none, containerName := none, retryCount := rc, inflight := st.inflight - 1 }

/-- Resumption of an in-flight run of `runForGroup` for `g`
(`group-queue.ts` 138-154 after the `await`, plus `drainGroup` 178-185):
retry bookkeeping, the `finally` cleanup, then either an immediate re-run
of `g` when its pending flag is set, or draining the wait list.  A
`complete` event for a group with no in-flight run cannot occur and is a
no-op. -/
def completeRun (maxc : Nat) (s : QueueState) (g : String) (success : Bool) :
    QueueState × List Invocation :=
  let st := s.groups g
  if st.inflight = 0 then (s, [])
  else
    let rc := if success then 0 else (scheduleRetry st.retryCount).1
    let st1 := finishG st rc
    let gs1 := updG s.groups g st1
    let cnt1 := s.activeCount - 1
    if st1.pendingMessages then
      let gs2 := updG gs1 g (startG st1)
      ({ groups := gs2, waitingGroups := s.waitingGroups, activeCount := cnt1 + 1 },
        [(g, st1.active)])
    else
      let r := drainWaitingAux maxc gs1 cnt1 s.waitingGroups
      ({ groups := r.1, waitingGroups := r.2.2.1, activeCount := r.2.1 }, r.2.2.2)

inductive QueueEvent where
  | enqueue (g : String)
  | complete (g : String) (success : Bool)

def queueStep (maxc : Nat) (s : QueueState) : QueueEvent → QueueState × List Invocation
  | QueueEvent.enqueue g => enqueueMessageCheck maxc s g
  | QueueEvent.complete g ok => completeRun maxc s g ok

def queueRun (maxc : Nat) (s : QueueState) :
    List QueueEvent → QueueState × List Invocation
  | [] => (s, [])
  | e :: es =>
    let r := queueStep maxc s e
    let r2 := queueRun maxc r.1 es
    (r2.1, r.2 ++ r2.2)

/-! ## GroupQueue long-lived session operations (`group-queue.ts` 84-117)

Filesystem effects are modelled as a list of operations; `sendMessage`
writes the message JSON to a temp file and renames it into the group's IPC
input folder, `closeStdin` writes the `_close` sentinel.  The message
filename (`Date.now()` plus random suffix) is a parameter. -/

inductive FsOp where
  | mkdirRecursive (dir : String)
  | writeMessageFile (path : String) (text : String)
  | writeRaw (path : String) (content : String)
  | rename (src dst : String)
deriving DecidableEq, Repr

def ipcInputDir (dataDir folder : String) : String :=
  dataDir ++ "/ipc/" ++ folder ++ "/input"

/-- `GroupQueue.sendMessage` (`group-queue.ts` 84-102): returns `false` with
no filesystem write when the group has no active run (or no recorded group
folder); otherwise atomically writes a message file into the group's IPC
input folder and returns `true`. -/
def sendMessage (dataDir filename : String) (groups : String → GState)
    (g text : String) : Bool × List FsOp :=
  let st := groups g
  match st.groupFolder with
  | none => (false, [])
  | some folder =>
    if st.active then
      let dir := ipcInputDir dataDir folder
      (true,
        [FsOp.mkdirRecursive dir,
          FsOp.writeMessageFile (dir ++ "/" ++ filename ++ ".tmp") text,
          FsOp.rename (dir ++ "/" ++ filename ++ ".tmp") (dir ++ "/" ++ filename)])
    else (false, [])

/-- `GroupQueue.closeStdin` (`group-queue.ts` 104-117): a `void` method — the
first component is the caller-visible return value, always `Unit.unit`;
writes the `_close` sentinel only when the group is active with a recorded
folder. -/
def closeStdin (dataDir : String) (groups : String → GState) (g : String) :
    Unit × List FsOp :=
  let st := groups g
  match st.groupFolder with
  | none => ((), [])
  | some folder =>
    if st.active then
      let dir := ipcInputDir dataDir folder
      ((), [FsOp.mkdirRecursive dir, FsOp.writeRaw (dir ++ "/_close") ""])
    else ((), [])

theorem startG_active (st : GState) : (startG st).active = true := rfl

theorem startG_pendingMessages (st : GState) : (startG st).pendingMessages = false := rfl

theorem startG_inflight (st : GState) : (startG st).inflight = st.inflight + 1 := rfl

theorem finishG_active (st : GState) (rc : Nat) : (finishG st rc).active = false := rfl

theorem finishG_pendingMessages (st : GState) (rc : Nat) :
    (finishG st rc).pendingMessages = st.pendingMessages := rfl

theorem finishG_inflight (st : GState) (rc : Nat) :
    (finishG st rc).inflight = st.inflight - 1 := rfl

theorem updG_same (f : String → GState) (k : String) (v : GState) :
    updG f k v k = v := by
  simp [updG]

theorem updG_other (f : String → GState) (k : String) (v : GState) (x : String)
    (h : x ≠ k) : updG f k v x = f x := by
  simp [updG, h]

/-- The reachability invariant of the queue: the wait list has no
duplicates, holds only inactive groups, and is nonempty only at the
concurrency ceiling; and some duplicate-free list `L` of currently active
groups witnesses the counter, the `active` flags and the in-flight run
counts (at most one run in flight per group). -/
def QInv (maxc : Nat) (s : QueueState) : Prop :=
  s.waitingGroups.Nodup ∧
  (∀ g ∈ s.waitingGroups, (s.groups g).active = false) ∧
  (s.waitingGroups ≠ [] → maxc ≤ s.activeCount) ∧
  ∃ L : List String, L.Nodup ∧ s.activeCount = L.length ∧
    (∀ g, ((s.groups g).active = true ↔ g ∈ L)) ∧
    (∀ g, (s.groups g).inflight = if g ∈ L then 1 else 0)

/-- A concrete queue state whose every group is mid-run, for witnessing. -/
def activeQueueState : QueueState :=
  { groups := fun _ => { active := true, pendingMessages := false, groupFolder := none, containerName := none, retryCount := 0, inflight := 1 }, waitingGroups := [], activeCount := 1 }

/-- A concrete group map whose every group is mid-run with a recorded
group folder, for witnessing the session operations. -/
def activeFolderGroups : String → GState :=
  fun _ => { active := true, pendingMessages := false, groupFolder := some "fld", containerName := some "c", retryCount := 0, inflight := 1 }

/-! ## IPC watcher and authorization (`src/unnamed/part_010`)

The IPC bus's observable world: the registered-groups record (an
association list with unique keys, as a JS object), the task table, the
messages delivered through `deps.sendMessage`, and a flag recording the
`refresh_groups` side effect (`syncGroupMetadata` + groups snapshot).
`computeNextRun` (from `scheduling.ts`) and the database-assigned id of a
newly created task are parameters.  Database timestamp columns are not
modelled. -/

structure RegisteredGroup where
  name : String
  folder : String
  requiresTrigger : Bool := true
deriving DecidableEq, Repr

structure Task where
  id : Int
  group_folder : String
  chat_jid : Option String := none
  prompt : String
  schedule_type : String
  schedule_value : String
  status : String
  next_run : Option String := none
deriving DecidableEq, Repr

structure IpcWorld where
  registered : List (String × RegisteredGroup)
  tasks : List Task
  sent : List (String × String)
  syncedAndSnapshotted : Bool := false
deriving DecidableEq, Repr

/-- JavaScript truthiness of an optional string (`undefined` and `""` are
falsy). -/
def truthy : Option String → Bool
  | none => false
  | some s => !s.isEmpty

/-- `Number.parseInt(s, 10)` followed by the `Number.isFinite` check:
`none` models `NaN`. -/
def jsParseInt (s : String) : Option Int :=
  let cs := s.toList.dropWhile isJsWhitespace
  let sign : Int := if cs.head? = some '-' then -1 else 1
  let cs2 := if cs.head? = some '-' || cs.head? = some '+' then cs.tail else cs
  let digits := cs2.takeWhile (fun c => c.isDigit)
  if digits = [] then none
  else some (sign * (digits.foldl (fun acc c => acc * 10 + (c.toNat - '0'.toNat)) 0 : Nat))

/-- `registeredGroups[jid]`. -/
def lookupGroup (w : IpcWorld) (jid : String) : Option RegisteredGroup :=
  (w.registered.find? fun kv => kv.1 == jid).map fun kv => kv.2

/-- `findJidByGroupFolder` (`part_010` 561-571). -/
def findJidByGroupFolder (w : IpcWorld) (groupFolder : String) : Option String :=
  (w.registered.find? fun kv => kv.2.folder == groupFolder).map fun kv => kv.1

/-- `getTaskById` (db collaborator). -/
def getTaskById (w : IpcWorld) (taskId : Int) : Option Task :=
  w.tasks.find? fun t => t.id == taskId

def createTask (w : IpcWorld) (t : Task) : IpcWorld :=
  { w with tasks := w.tasks ++ [t] }

def updateTaskStatus (w : IpcWorld) (taskId : Int) (status : String) : IpcWorld :=
  { w with tasks := w.tasks.map fun t => if t.id == taskId then { t with status := status } else t }

def updateTaskDefinition (w : IpcWorld) (taskId : Int) (prompt st sv nextRun : String) :
    IpcWorld :=
  { w with tasks := w.tasks.map fun t => if t.id == taskId then { t with prompt := prompt, schedule_type := st, schedule_value := sv, next_run := some nextRun, status := "active" } else t }

def deleteTask (w : IpcWorld) (taskId : Int) : IpcWorld :=
  { w with tasks := w.tasks.filter fun t => !(t.id == taskId) }

def registerGroup (w : IpcWorld) (jid : String) (g : RegisteredGroup) : IpcWorld :=
  { w with registered := (w.registered.filter fun kv => !(kv.1 == jid)) ++ [(jid, g)] }

def unregisterGroup (w : IpcWorld) (jid : String) : IpcWorld :=
  { w with registered := w.registered.filter fun kv => !(kv.1 == jid) }

/-- The `TaskIPCRequest` shape (`part_010` 379-391). -/
structure TaskIPCRequest where
  type : String
  taskId : Option String := none
  prompt : Option String := none
  schedule_type : Option String := none
  schedule_value : Option String := none
  targetJid : Option String := none
  requiresTrigger : Option Bool := none
  jid : Option String := none
  name : Option String := none
  folder : Option String := none
  trigger : Option String := none
deriving DecidableEq, Repr

/-- The parsed shape a message-IPC file is read as (`part_010` 327-331). -/
structure MessageIPCRequest where
  type : String
  chatJid : Option String := none
  text : Option String := none
deriving DecidableEq, Repr

/-- Processing of one parsed message-IPC file (`part_010` 333-347): deliver
`"<assistant>: <text>"` to the target chat only when the origin is main or
the target chat's registered folder equals the origin namespace. -/
def processMessageFile (assistantName : String) (data : MessageIPCRequest)
    (sourceGroup : String) (isMain : Bool) (w : IpcWorld) : IpcWorld :=
  if data.type == "message" && truthy data.chatJid && truthy data.text then
    let chatJid := data.chatJid.getD ""
    let authorized := isMain ||
      (match lookupGroup w chatJid with
        | some targetGroup => targetGroup.folder == sourceGroup
        | none => false)
    if authorized then
      { w with sent := w.sent ++ [(chatJid, assistantName ++ ": " ++ data.text.getD "")] }
    else w
  else w

/-- The shared body of the four task mutations (`part_010` 455-511) after
`taskId` has been parsed: look up the task, re-check authorization, then
pause / resume / update / delete. -/
def processTaskMutation (computeNextRun : String → String → Option String)
    (data : TaskIPCRequest) (sourceGroup : String) (isMain : Bool) (w : IpcWorld)
    (taskId : Int) : IpcWorld :=
  match getTaskById w taskId with
  | none => w
  | some task =>
    if !isMain && !(task.group_folder == sourceGroup) then w
    else if data.type == "pause_task" then updateTaskStatus w taskId "paused"
    else if data.type == "resume_task" then updateTaskStatus w taskId "active"
    else if data.type == "update_task" then
      if !(truthy data.prompt && truthy data.schedule_type && truthy data.schedule_value) then w
      else
        match computeNextRun (data.schedule_type.getD "") (data.schedule_value.getD "") with
        | none => w
        | some nextRun =>
          updateTaskDefinition w taskId (data.prompt.getD "") (data.schedule_type.getD "") (data.schedule_value.getD "") nextRun
    else deleteTask w taskId

/-- `processTaskIpc` (`part_010` 393-559): the world after dispatching one
parsed task-IPC request from namespace `sourceGroup`. -/
def processTaskIpc (computeNextRun : String → String → Option String) (newTaskId : Int)
    (data : TaskIPCRequest) (sourceGroup : String) (isMain : Bool) (w : IpcWorld) :
    IpcWorld :=
  if data.type == "schedule_task" then
    if !(truthy data.prompt && truthy data.schedule_type && truthy data.schedule_value) then w
    else
      match (if truthy data.targetJid then data.targetJid
        else findJidByGroupFolder w sourceGroup) with
      | none => w
      | some targetJid =>
        if targetJid == "" then w
        else
          match lookupGroup w targetJid with
          | none => w
          | some targetGroup =>
            if !isMain && !(targetGroup.folder == sourceGroup) then w
            else
              match computeNextRun (data.schedule_type.getD "") (data.schedule_value.getD "") with
              | none => w
              | some nextRun =>
                createTask w { id := newTaskId, group_folder := targetGroup.folder, chat_jid := some targetJid, prompt := data.prompt.getD "", schedule_type := data.schedule_type.getD "", schedule_value := data.schedule_value.getD "", status := "active", next_run := some nextRun }
  else if data.type == "pause_task" || data.type == "resume_task" ||
      data.type == "cancel_task" || data.type == "update_task" then
    if !(truthy data.taskId) then w
    else
      match jsParseInt (data.taskId.getD "") with
      | none => w
      | some taskId => processTaskMutation computeNextRun data sourceGroup isMain w taskId
  else if data.type == "refresh_groups" then
    if !isMain then w else { w with syncedAndSnapshotted := true }
  else if data.type == "register_group" then
    if !isMain then w
    else if !(truthy data.jid && truthy data.name && truthy data.folder) then w
    else registerGroup w (data.jid.getD "") { name := data.name.getD "", folder := data.folder.getD "", requiresTrigger := data.requiresTrigger.getD true }
  else if data.type == "remove_group" then
    if !isMain then w
    else if !(truthy data.jid) then w
    else unregisterGroup w (data.jid.getD "")
  else w

/-- The claim's notion of a message request whose explicit target resolves
to the origin's own group. -/
def messageTargetsOwnGroup (w : IpcWorld) (data : MessageIPCRequest)
    (sourceGroup : String) : Bool :=
  match lookupGroup w (data.chatJid.getD "") with
  | some targetGroup => targetGroup.folder == sourceGroup
  | none => false

/-- The claim's notion of a task request whose explicit target resolves to
the origin's own group: for `schedule_task` an absent explicit target
defaults to the origin itself; for the four task mutations the target is
the referenced task's owning folder; the group-level requests
(`refresh_groups`, `register_group`, `remove_group`) and unknown types have
no own-group target. -/
def taskTargetsOwnGroup (w : IpcWorld) (data : TaskIPCRequest)
    (sourceGroup : String) : Bool :=
  if data.type == "schedule_task" then
    if truthy data.targetJid then
      match lookupGroup w (data.targetJid.getD "") with
      | some targetGroup => targetGroup.folder == sourceGroup
      | none => false
    else true
  else if data.type == "pause_task" || data.type == "resume_task" ||
      data.type == "cancel_task" || data.type == "update_task" then
    match (jsParseInt (data.taskId.getD "")).bind (getTaskById w) with
    | some task => task.group_folder == sourceGroup
    | none => false
  else false

/-- A concrete two-group world for witnessing the IPC authorization. -/
def ipcExampleWorld : IpcWorld :=
  { registered := [("j1", { name := "G1", folder := "f1" }), ("j2", { name := "G2", folder := "f2" })], tasks := [{ id := 7, group_folder := "f2", prompt := "p", schedule_type := "cron", schedule_value := "v", status := "active" }], sent := [] }

/-- A message request from `f1` targeting `f2`'s chat. -/
def ipcExampleMessage : MessageIPCRequest :=
  { type := "message", chatJid := some "j2", text := some "hi" }

/-- A task mutation from `f1` targeting `f2`'s task. -/
def ipcExampleTask : TaskIPCRequest :=
  { type := "pause_task", taskId := some "7" }

end BabyBot

/-! ## Theorems -/

namespace BabyBot

/-- C4: for every retry attempt `k ≥ 1` within the cap the scheduled delay is
`5000 * 2^(k-1)` ms and the retry counter becomes `k`; once the incremented
count exceeds the cap `MAX_RETRIES = 5`, the counter resets to `0` and no
retry is scheduled (`scheduleRetry 5 = (0, none)`). -/
theorem scheduleRetry_backoff_and_cap :
    (∀ k : Nat, 1 ≤ k → k ≤ MAX_RETRIES →
      scheduleRetry (k - 1) = (k, some (5000 * 2 ^ (k - 1)))) ∧
    scheduleRetry MAX_RETRIES = (0, none) := by
  constructor
  · intro k hk1 hk5
    have hk : k - 1 + 1 = k := Nat.succ_pred_eq_of_pos hk1
    have hk5' : k ≤ 5 := hk5
    simp only [scheduleRetry, MAX_RETRIES, BASE_RETRY_MS, hk]
    have : ¬ k > 5 := by omega
    simp [this]
  · decide

/-- Closed witness for `scheduleRetry_backoff_and_cap`: attempt `k = 3`. -/
theorem scheduleRetry_backoff_and_cap_witness :
    (1 ≤ 3 ∧ 3 ≤ MAX_RETRIES) ∧ scheduleRetry 2 = (3, some 20000) := by
  refine ⟨by decide, ?_⟩
  have h := scheduleRetry_backoff_and_cap.1 3 (by decide) (by decide)
  simpa using h

/-- C10: with `isMain = false` the tasks snapshot contains exactly the input
tasks whose `groupFolder` equals the target folder, and the groups snapshot is
the empty list; with `isMain = true` both snapshots are the unchanged input
lists. -/
theorem snapshots_scoped_to_group (groupFolder : String)
    (tasks : List TaskSnapshot) (groups : List AvailableGroup) :
    (∀ t : TaskSnapshot,
      t ∈ writeTasksSnapshot groupFolder false tasks ↔
        t ∈ tasks ∧ t.groupFolder = groupFolder) ∧
    writeGroupsSnapshot groupFolder false groups = [] ∧
    writeTasksSnapshot groupFolder true tasks = tasks ∧
    writeGroupsSnapshot groupFolder true groups = groups := by
  refine ⟨?_, rfl, rfl, rfl⟩
  intro t
  simp [writeTasksSnapshot, List.mem_filter]

theorem timeout_message_ne_exit_message (code : Int) (stderr : String) :
    "Container execution timeout" ≠
      "Container exited with code " ++ toString code ++ ": " ++ stderr := by
  intro h
  have hdata := congrArg String.data h
  simp only [String.data_append] at hdata
  have hlen := congrArg List.length hdata
  simp only [List.length_append] at hlen
  simp at hlen
  omega

/-- C6: the `close` handler of `runContainerAgent` resolves a
timeout-killed run that already delivered at least one frame
(`hadStreamingOutput = true`) as `success` carrying the last delivered
session id; a timeout-killed run with zero delivered frames resolves as an
error whose message is `"Container execution timeout"`; a non-timeout,
non-zero exit resolves as an error whose message carries the stderr content
— and the two error messages can never coincide. -/
theorem containerCloseResult_timeout_semantics :
    (∀ jp lsid code stderr streaming stdout,
        containerCloseResult jp true true lsid code stderr streaming stdout =
          { status := OutputStatus.success, result := none, newSessionId := lsid }) ∧
    (∀ jp lsid code stderr streaming stdout,
        containerCloseResult jp true false lsid code stderr streaming stdout =
          { status := OutputStatus.error, result := none,
            error := some "Container execution timeout" }) ∧
    (∀ jp lsid code stderr streaming stdout hso, code ≠ 0 →
        containerCloseResult jp false hso lsid code stderr streaming stdout =
          { status := OutputStatus.error, result := none,
            error := some ("Container exited with code " ++ toString code ++
              ": " ++ stderr) }) ∧
    (∀ (code : Int) (stderr : String),
        ("Container execution timeout" : String) ≠
          "Container exited with code " ++ toString code ++ ": " ++ stderr) ∧
    (∀ (code : Int) (stderr : String), ∃ p : String,
        "Container exited with code " ++ toString code ++ ": " ++ stderr =
          p ++ stderr) := by
  refine ⟨?_, ?_, ?_, timeout_message_ne_exit_message, ?_⟩
  · intro jp lsid code stderr streaming stdout
    simp [containerCloseResult]
  · intro jp lsid code stderr streaming stdout
    simp [containerCloseResult]
  · intro jp lsid code stderr streaming stdout hso hcode
    simp [containerCloseResult, hcode]
  · intro code stderr
    exact ⟨"Container exited with code " ++ toString code ++ ": ", by
      simp [String.append_assoc]⟩

/-- Closed witness for `containerCloseResult_timeout_semantics`: exit code 1
with stderr `"boom"`. -/
theorem containerCloseResult_timeout_semantics_witness :
    ((1 : Int) ≠ 0) ∧
    containerCloseResult (fun _ => none) false false none 1 "boom" false [] =
      { status := OutputStatus.error, result := none,
        error := some ("Container exited with code " ++ toString (1 : Int) ++
          ": " ++ "boom") } :=
  ⟨by decide, containerCloseResult_timeout_semantics.2.2.1
    (fun _ => none) none 1 "boom" false [] false (by decide)⟩

/-- C8 counterexample: the claim says that for an input with `queryLoop` set
the host leaves the child's stdin open, but `runContainerAgent`
unconditionally ends stdin right after writing the serialized input
(`container-runner.ts` 357-358): the stdin action sequence for a
`queryLoop = true` input still contains the close action. -/
theorem stdinPlan_closes_despite_queryLoop :
    StdinAction.close ∈
      stdinPlan (fun _ => "")
        { prompt := "hi", groupFolder := "grp", chatJid := "jid",
          isMain := false, queryLoop := some true } := by
  simp [stdinPlan]

/-- C8 (amended): `runContainerAgent` serializes the input to the child's
stdin and closes stdin immediately after the write for every input — in
one-shot mode and in query-loop mode alike (query-loop turns are piped via
IPC input files instead of stdin). -/
theorem stdinPlan_always_write_then_close
    (serialize : ContainerInput → String) (input : ContainerInput) :
    stdinPlan serialize input =
      [StdinAction.write (serialize input), StdinAction.close] := rfl

theorem extractLoop_of_no_start {buf : List Char}
    (h : firstOcc OUTPUT_START_MARKER buf = none) :
    extractLoop buf = (buf, []) := by
  rw [extractLoop.eq_def]
  split
  · rfl
  · rename_i i heq
    rw [h] at heq
    cases heq

theorem extractLoop_of_no_end {buf : List Char} {i : Nat}
    (h1 : firstOcc OUTPUT_START_MARKER buf = some i)
    (h2 : firstOcc OUTPUT_END_MARKER (buf.drop (i + OUTPUT_START_MARKER.length)) = none) :
    extractLoop buf = (buf, []) := by
  rw [extractLoop.eq_def]
  split
  · rfl
  · rename_i i' heq
    rw [h1] at heq
    cases heq
    split
    · rfl
    · rename_i j heq2
      rw [h2] at heq2
      cases heq2

theorem extractLoop_of_frame {buf : List Char} {i j : Nat}
    (h1 : firstOcc OUTPUT_START_MARKER buf = some i)
    (h2 : firstOcc OUTPUT_END_MARKER (buf.drop (i + OUTPUT_START_MARKER.length)) = some j) :
    extractLoop buf =
      ((extractLoop ((buf.drop (i + OUTPUT_START_MARKER.length)).drop
          (j + OUTPUT_END_MARKER.length))).1,
        jsTrim ((buf.drop (i + OUTPUT_START_MARKER.length)).take j) ::
          (extractLoop ((buf.drop (i + OUTPUT_START_MARKER.length)).drop
            (j + OUTPUT_END_MARKER.length))).2) := by
  rw [extractLoop.eq_def]
  split
  · rename_i heq
    rw [h1] at heq
    cases heq
  · rename_i i' heq
    rw [h1] at heq
    cases heq
    split
    · rename_i heq2
      rw [h2] at heq2
      cases heq2
    · rename_i j' heq2
      rw [h2] at heq2
      cases heq2
      rfl

/-- Appending further bytes to an unconsumed buffer: the extraction loop on
the extended buffer produces exactly the frames of the original buffer
followed by the frames obtained by re-running the loop on the retained
residual plus the new bytes. -/
theorem extractLoop_append (buf b : List Char) :
    extractLoop (buf ++ b) =
      ((extractLoop ((extractLoop buf).1 ++ b)).1,
        (extractLoop buf).2 ++ (extractLoop ((extractLoop buf).1 ++ b)).2) := by
  cases h1 : firstOcc OUTPUT_START_MARKER buf with
  | none =>
    rw [extractLoop_of_no_start h1]
    simp
  | some i =>
    cases h2 : firstOcc OUTPUT_END_MARKER (buf.drop (i + OUTPUT_START_MARKER.length)) with
    | none =>
      rw [extractLoop_of_no_end h1 h2]
      simp
    | some j =>
      have hb1 := (firstOcc_isPrefix h1).2
      have hb2 := (firstOcc_isPrefix h2).2
      have hiLS : i + OUTPUT_START_MARKER.length ≤ buf.length := hb1
      have hrest : (buf ++ b).drop (i + OUTPUT_START_MARKER.length) =
          buf.drop (i + OUTPUT_START_MARKER.length) ++ b :=
        List.drop_append_of_le_length hiLS
      have e1 : firstOcc OUTPUT_START_MARKER (buf ++ b) = some i := firstOcc_append h1 b
      have e2 : firstOcc OUTPUT_END_MARKER ((buf ++ b).drop
          (i + OUTPUT_START_MARKER.length)) = some j := by
        rw [hrest]
        exact firstOcc_append h2 b
      have hjle : j ≤ (buf.drop (i + OUTPUT_START_MARKER.length)).length := by
        omega
      have hjEle : j + OUTPUT_END_MARKER.length ≤
          (buf.drop (i + OUTPUT_START_MARKER.length)).length := hb2
      have htk : ((buf ++ b).drop (i + OUTPUT_START_MARKER.length)).take j =
          (buf.drop (i + OUTPUT_START_MARKER.length)).take j := by
        rw [hrest]
        exact List.take_append_of_le_length hjle
      have hdp : ((buf ++ b).drop (i + OUTPUT_START_MARKER.length)).drop
            (j + OUTPUT_END_MARKER.length) =
          (buf.drop (i + OUTPUT_START_MARKER.length)).drop
            (j + OUTPUT_END_MARKER.length) ++ b := by
        rw [hrest]
        exact List.drop_append_of_le_length hjEle
      rw [extractLoop_of_frame e1 e2, extractLoop_of_frame h1 h2, htk, hdp]
      rw [extractLoop_append ((buf.drop (i + OUTPUT_START_MARKER.length)).drop
        (j + OUTPUT_END_MARKER.length)) b]
      simp
termination_by buf.length
decreasing_by
  simp only [List.length_drop, OUTPUT_START_MARKER_length, OUTPUT_END_MARKER_length] at hb1 hb2 ⊢
  omega

theorem feedChunk_feedChunk (st : StreamState) (a b : List Char) :
    feedChunk (feedChunk st a) b = feedChunk st (a ++ b) := by
  simp only [feedChunk]
  rw [← List.append_assoc, extractLoop_append (st.parseBuffer ++ a) b]
  simp

theorem feedChunks_cons_flatten (st : StreamState) (c : List Char)
    (chunks : List (List Char)) :
    feedChunks (feedChunk st c) chunks = feedChunk st (c ++ chunks.flatten) := by
  induction chunks generalizing st c with
  | nil => simp [feedChunks]
  | cons d ds ih =>
    simp only [feedChunks, List.foldl_cons] at *
    rw [feedChunk_feedChunk, ih]
    simp

/-- C5: chunking-invariance of the streaming frame parser of
`runContainerAgent`.  For every stdout byte stream and every partition of it
into chunks, feeding the chunks one at a time through the `data` handler
yields exactly the same delivered frame list (same frames, same JSON text,
same order, each exactly once) and the same residual buffer as if the whole
stream had arrived in a single chunk — in particular a frame whose start
marker, body or end marker is split across a chunk boundary at any byte
offset is parsed exactly once with unchanged content. -/
theorem frame_parser_chunking_invariant (chunks : List (List Char)) :
    feedChunks initStream chunks = feedChunk initStream chunks.flatten ∧
    (feedChunks initStream chunks).frames = (extractLoop chunks.flatten).2 := by
  have h0 : firstOcc OUTPUT_START_MARKER ([] : List Char) = none := rfl
  have hmain : feedChunks initStream chunks = feedChunk initStream chunks.flatten := by
    cases chunks with
    | nil =>
      simp [feedChunks, feedChunk, initStream, extractLoop_of_no_start h0]
    | cons c ds =>
      simp only [feedChunks, List.foldl_cons]
      rw [show (List.foldl feedChunk (feedChunk initStream c) ds) =
        feedChunks (feedChunk initStream c) ds from rfl]
      rw [feedChunks_cons_flatten]
      simp
  refine ⟨hmain, ?_⟩
  rw [hmain]
  simp [feedChunk, initStream]

/-! ### Path lemmas -/

theorem mem_splitOnP_not {α : Type} (p : α → Bool) (xs : List α) :
    ∀ s ∈ xs.splitOnP p, ∀ c ∈ s, ¬ p c := by
  induction xs with
  | nil =>
    intro s hs c hc
    simp at hs
    subst hs
    simp at hc
  | cons x xs ih =>
    intro s hs c hc
    rw [List.splitOnP_cons] at hs
    by_cases hpx : p x
    · simp [hpx] at hs
      rcases hs with rfl | hs
      · simp at hc
      · exact ih s hs c hc
    · simp [hpx] at hs
      cases hsp : xs.splitOnP p with
      | nil => exact absurd hsp (List.splitOnP_ne_nil p xs)
      | cons hd tl =>
        rw [hsp] at hs
        simp [List.modifyHead] at hs
        rcases hs with rfl | hs
        · rcases List.mem_cons.mp hc with rfl | hc2
          · exact hpx
          · exact ih hd (by rw [hsp]; exact List.mem_cons_self _ _) c hc2
        · exact ih s (by rw [hsp]; exact List.mem_cons_of_mem _ hs) c hc

theorem not_mem_of_mem_splitOn {s : List Char} {xs : List Char}
    (h : s ∈ xs.splitOn '/') : '/' ∉ s := by
  intro hc
  exact mem_splitOnP_not (· == '/') xs s h '/' hc (by simp)

/-- Segments produced by POSIX normalization: nonempty, not `.`, not `..`. -/
theorem normSegs_foldl_mem :
    ∀ (segs : List (List Char)) (acc : List (List Char)) (s : List Char),
      s ∈ List.foldl normSegsStep acc segs →
      s ∈ acc ∨ (s ∈ segs ∧ s ≠ [] ∧ s ≠ ['.'] ∧ s ≠ ['.', '.']) := by
  intro segs
  induction segs with
  | nil =>
    intro acc s hs
    exact Or.inl hs
  | cons seg rest ih =>
    intro acc s hs
    simp only [List.foldl_cons] at hs
    rcases ih (normSegsStep acc seg) s hs with hmem | hgood
    · unfold normSegsStep at hmem
      split at hmem
      · exact Or.inl hmem
      · split at hmem
        · exact Or.inl (List.IsPrefix.mem hmem (List.dropLast_prefix acc))
        · rename_i hn1 hn2
          rcases List.mem_append.mp hmem with h1 | h2
          · exact Or.inl h1
          · simp at h2
            subst h2
            refine Or.inr ⟨List.mem_cons_self _ _, ?_, ?_, hn2⟩
            · intro hc; exact hn1 (Or.inl hc)
            · intro hc; exact hn1 (Or.inr hc)
    · exact Or.inr ⟨List.mem_cons_of_mem _ hgood.1, hgood.2⟩

theorem resolveSegs_good (cwd p : List Char) :
    ∀ s ∈ resolveSegs cwd p,
      s ≠ [] ∧ s ≠ ['.'] ∧ s ≠ ['.', '.'] ∧ '/' ∉ s := by
  intro s hs
  unfold resolveSegs at hs
  rcases normSegs_foldl_mem _ _ _ hs with hmem | hgood
  · simp at hmem
  · exact ⟨hgood.2.1, hgood.2.2.1, hgood.2.2.2, not_mem_of_mem_splitOn hgood.1⟩

theorem normSegs_foldl_of_good :
    ∀ (segs : List (List Char)) (acc : List (List Char)),
      (∀ s ∈ segs, s ≠ [] ∧ s ≠ ['.'] ∧ s ≠ ['.', '.']) →
      List.foldl normSegsStep acc segs = acc ++ segs := by
  intro segs
  induction segs with
  | nil => intro acc _; simp
  | cons seg rest ih =>
    intro acc hgood
    have hseg := hgood seg (List.mem_cons_self _ _)
    simp only [List.foldl_cons]
    have hstep : normSegsStep acc seg = acc ++ [seg] := by
      unfold normSegsStep
      rw [if_neg, if_neg hseg.2.2]
      push_neg
      exact ⟨hseg.1, hseg.2.1⟩
    rw [hstep, ih (acc ++ [seg]) (fun s hsmem => hgood s (List.mem_cons_of_mem _ hsmem))]
    simp

theorem splitOn_cons_sep (l : List Char) :
    ('/' :: l).splitOn '/' = [] :: l.splitOn '/' := by
  simp [List.splitOn, List.splitOnP_cons]

theorem resolveSegs_resolvePath (cwd p : List Char) :
    resolveSegs cwd (resolvePath cwd p) = resolveSegs cwd p := by
  cases hseg : resolveSegs cwd p with
  | nil =>
    show resolveSegs cwd ('/' :: List.intercalate ['/'] (resolveSegs cwd p)) = []
    rw [hseg]
    rfl
  | cons hd tl =>
    show resolveSegs cwd ('/' :: List.intercalate ['/'] (resolveSegs cwd p)) = hd :: tl
    rw [hseg]
    unfold resolveSegs
    rw [if_pos (show ('/' :: List.intercalate ['/'] (hd :: tl)).head? = some '/' from rfl)]
    show normSegs (List.splitOn '/' ('/' :: List.intercalate ['/'] (hd :: tl))) = hd :: tl
    rw [splitOn_cons_sep]
    rw [List.splitOn_intercalate (hd :: tl) '/'
      (fun l hl => (resolveSegs_good cwd p l (hseg ▸ hl)).2.2.2)
      (List.cons_ne_nil hd tl)]
    show List.foldl normSegsStep (normSegsStep [] []) (hd :: tl) = hd :: tl
    have h0 : normSegsStep [] [] = [] := rfl
    rw [h0]
    rw [normSegs_foldl_of_good (hd :: tl) []
      (fun s hsmem => by
        have := resolveSegs_good cwd p s (hseg ▸ hsmem)
        exact ⟨this.1, this.2.1, this.2.2.1⟩)]
    simp

theorem resolvePath_idem (cwd p : List Char) :
    resolvePath cwd (resolvePath cwd p) = resolvePath cwd p := by
  show '/' :: List.intercalate ['/'] (resolveSegs cwd (resolvePath cwd p)) = _
  rw [resolveSegs_resolvePath]
  rfl

theorem commonPrefixLen_le_left :
    ∀ as bs : List (List Char), commonPrefixLen as bs ≤ as.length := by
  intro as
  induction as with
  | nil => intro bs; cases bs <;> simp [commonPrefixLen]
  | cons a as ih =>
    intro bs
    cases bs with
    | nil => simp [commonPrefixLen]
    | cons b bs =>
      unfold commonPrefixLen
      split
      · have := ih bs
        simp only [List.length_cons]
        omega
      · simp

theorem commonPrefixLen_eq_left_iff :
    ∀ as bs : List (List Char),
      (commonPrefixLen as bs = as.length ↔ as <+: bs) := by
  intro as
  induction as with
  | nil =>
    intro bs
    cases bs <;> simp [commonPrefixLen]
  | cons a as ih =>
    intro bs
    cases bs with
    | nil =>
      simp only [commonPrefixLen, List.length_cons]
      constructor
      · intro h; omega
      · intro h; exact absurd h (by simp)
    | cons b bs =>
      unfold commonPrefixLen
      split
      · rename_i hab
        subst hab
        simp only [List.length_cons, Nat.add_right_cancel_iff, List.cons_prefix_cons,
          true_and]
        exact ih bs
      · rename_i hab
        simp only [List.length_cons, List.cons_prefix_cons]
        constructor
        · intro h; omega
        · intro h; exact absurd h.1 hab

theorem intercalate_sep_cons (x : List Char) (rest : List (List Char)) :
    List.intercalate ['/'] (x :: rest) =
      x ++ (if rest.isEmpty then [] else '/' :: List.intercalate ['/'] rest) := by
  cases rest with
  | nil => simp [List.intercalate]
  | cons y t =>
    simp only [List.intercalate, List.intersperse_cons_cons, List.flatten_cons,
      List.isEmpty_cons, Bool.false_eq_true, if_false]
    simp

theorem ddPrefix_intercalate (x : List Char) (rest : List (List Char)) :
    ['.', '.'].isPrefixOf (List.intercalate ['/'] (x :: rest)) =
      ['.', '.'].isPrefixOf x := by
  rw [intercalate_sep_cons]
  cases x with
  | nil =>
    cases rest with
    | nil => simp [List.isPrefixOf]
    | cons y t => simp [List.isPrefixOf]
  | cons c1 x1 =>
    cases x1 with
    | nil =>
      cases rest with
      | nil => simp [List.isPrefixOf]
      | cons y t => simp [List.isPrefixOf]
    | cons c2 x2 => simp [List.isPrefixOf]

theorem absPrefix_intercalate (x : List Char) (rest : List (List Char))
    (hx : x ≠ []) (hslash : '/' ∉ x) :
    ['/'].isPrefixOf (List.intercalate ['/'] (x :: rest)) = false := by
  rw [intercalate_sep_cons]
  cases x with
  | nil => exact absurd rfl hx
  | cons c1 x1 =>
    have hc1 : ('/' == c1) = false := by
      simp only [beq_eq_false_iff_ne, ne_eq]
      intro hc
      exact hslash (hc ▸ List.mem_cons_self c1 x1)
    simp [List.isPrefixOf, hc1]

theorem intercalate_ne_nil_of_head_ne_nil (x : List Char) (rest : List (List Char))
    (hx : x ≠ []) : List.intercalate ['/'] (x :: rest) ≠ [] := by
  rw [intercalate_sep_cons]
  intro hcon
  exact hx (List.append_eq_nil.mp hcon).1

/-- The per-entry allow condition of `isPathAllowed` coincides with the
amended characterization: equal canonical segments, or a segment-prefix
descendant whose first extra segment does not start with `".."`. -/
theorem relCondition_eq_amended (cwd a h : List Char) :
    ((relativePath cwd (resolvePath cwd a) (resolvePath cwd h) == []) ||
      (!(['.', '.'].isPrefixOf (relativePath cwd (resolvePath cwd a) (resolvePath cwd h))) &&
        !(['/'].isPrefixOf (relativePath cwd (resolvePath cwd a) (resolvePath cwd h))))) =
    ((resolveSegs cwd a == resolveSegs cwd h) ||
      ((resolveSegs cwd a).isPrefixOf (resolveSegs cwd h) &&
        (match ((resolveSegs cwd h).drop (resolveSegs cwd a).length).head? with
          | some seg => !(['.', '.'].isPrefixOf seg)
          | none => false))) := by
  simp only [relativePath, resolveSegs_resolvePath]
  by_cases heq : resolveSegs cwd a = resolveSegs cwd h
  · rw [heq]
    have hc : commonPrefixLen (resolveSegs cwd h) (resolveSegs cwd h) =
        (resolveSegs cwd h).length :=
      (commonPrefixLen_eq_left_iff _ _).mpr (List.prefix_refl _)
    rw [hc]
    simp [List.intercalate]
  · have hne : (resolveSegs cwd a == resolveSegs cwd h) = false := by
      simp [heq]
    by_cases hpre : resolveSegs cwd a <+: resolveSegs cwd h
    · have hc : commonPrefixLen (resolveSegs cwd a) (resolveSegs cwd h) =
          (resolveSegs cwd a).length :=
        (commonPrefixLen_eq_left_iff _ _).mpr hpre
      rw [hc]
      have hlt : (resolveSegs cwd a).length < (resolveSegs cwd h).length := by
        rcases Nat.lt_or_ge (resolveSegs cwd a).length (resolveSegs cwd h).length with h1 | h1
        · exact h1
        · exact absurd (List.IsPrefix.eq_of_length hpre
            (Nat.le_antisymm hpre.length_le h1)) heq
      cases hdrop : (resolveSegs cwd h).drop (resolveSegs cwd a).length with
      | nil =>
        exfalso
        have := List.drop_eq_nil_iff.mp hdrop
        omega
      | cons seg rest =>
        have hsegmem : seg ∈ resolveSegs cwd h := by
          have : seg ∈ (resolveSegs cwd h).drop (resolveSegs cwd a).length := by
            rw [hdrop]; exact List.mem_cons_self _ _
          exact List.mem_of_mem_drop this
        have hgood := resolveSegs_good cwd h seg hsegmem
        have hrelne : List.intercalate ['/'] (List.replicate
            ((resolveSegs cwd a).length - (resolveSegs cwd a).length) ['.', '.'] ++
              (seg :: rest)) ≠ [] := by
          simp only [Nat.sub_self, List.replicate_zero, List.nil_append]
          exact intercalate_ne_nil_of_head_ne_nil seg rest hgood.1
        rw [Nat.sub_self]
        simp only [List.replicate_zero, List.nil_append, hdrop]
        have hdd := ddPrefix_intercalate seg rest
        have habs := absPrefix_intercalate seg rest hgood.1 hgood.2.2.2
        have hbeq : (List.intercalate ['/'] (seg :: rest) == []) = false := by
          simp only [beq_eq_false_iff_ne, ne_eq]
          exact intercalate_ne_nil_of_head_ne_nil seg rest hgood.1
        rw [hbeq, hdd, habs, hne]
        have hpreb : (resolveSegs cwd a).isPrefixOf (resolveSegs cwd h) = true :=
          List.isPrefixOf_iff_prefix.mpr hpre
        rw [hpreb]
        simp
    · have hc : commonPrefixLen (resolveSegs cwd a) (resolveSegs cwd h) <
          (resolveSegs cwd a).length := by
        rcases Nat.lt_or_ge (commonPrefixLen (resolveSegs cwd a) (resolveSegs cwd h))
            (resolveSegs cwd a).length with h1 | h1
        · exact h1
        · exact absurd ((commonPrefixLen_eq_left_iff _ _).mp
            (Nat.le_antisymm (commonPrefixLen_le_left _ _) h1)) hpre
      obtain ⟨k, hk⟩ : ∃ k, (resolveSegs cwd a).length -
          commonPrefixLen (resolveSegs cwd a) (resolveSegs cwd h) = k + 1 :=
        ⟨(resolveSegs cwd a).length -
          commonPrefixLen (resolveSegs cwd a) (resolveSegs cwd h) - 1, by omega⟩
      rw [hk]
      simp only [List.replicate_succ, List.cons_append]
      have hdd := ddPrefix_intercalate ['.', '.']
        (List.replicate k ['.', '.'] ++
          (resolveSegs cwd h).drop (commonPrefixLen (resolveSegs cwd a) (resolveSegs cwd h)))
      have hbeq : (List.intercalate ['/'] (['.', '.'] ::
          (List.replicate k ['.', '.'] ++ (resolveSegs cwd h).drop
            (commonPrefixLen (resolveSegs cwd a) (resolveSegs cwd h)))) == []) = false := by
        simp only [beq_eq_false_iff_ne, ne_eq]
        exact intercalate_ne_nil_of_head_ne_nil _ _ (by simp)
      have hpreb : (resolveSegs cwd a).isPrefixOf (resolveSegs cwd h) = false := by
        rw [← Bool.not_eq_true]
        intro hcon
        exact hpre (List.isPrefixOf_iff_prefix.mp hcon)
      rw [hbeq, hdd, hne, hpreb]
      simp [List.isPrefixOf]

/-- C2 counterexample: the claim's "if and only if" fails on the code.
`/repo/groups/..x` canonicalizes to a path-boundary-respecting descendant of
the allowlist entry `/repo/groups` (segment prefix), yet `isPathAllowed`
rejects it, because the relative path `..x` string-starts with `".."`
(`mount-security.ts` 59). -/
theorem isPathAllowed_claim_counterexample :
    isAllowedSpec "/".toList "/repo/groups/..x".toList ["/repo/groups".toList] = true ∧
    isPathAllowed "/".toList "/repo/groups/..x".toList ["/repo/groups".toList] = false := by
  constructor
  · decide
  · decide

/-- C2 (amended): `isPathAllowed(candidate, allowlist)` returns true iff the
canonicalized candidate equals an allowlist entry, or is a
path-boundary-respecting descendant of one whose first path segment below
that entry does not itself begin with `".."`; in particular
`isPathAllowed("/repo/groups/x", ["/repo/groups"])` is true and
`isPathAllowed("/repo/groups-evil", ["/repo/groups"])` is false despite the
shared string prefix. -/
theorem isPathAllowed_iff_amended :
    (∀ (cwd host : List Char) (allow : List (List Char)),
        isPathAllowed cwd host allow = isAllowedAmended cwd host allow) ∧
    isPathAllowed "/".toList "/repo/groups/x".toList ["/repo/groups".toList] = true ∧
    isPathAllowed "/".toList "/repo/groups-evil".toList ["/repo/groups".toList] = false := by
  refine ⟨?_, by decide, by decide⟩
  intro cwd host allow
  induction allow with
  | nil => rfl
  | cons a rest ih =>
    simp only [isPathAllowed, isAllowedAmended, List.any_cons] at ih ⊢
    rw [relCondition_eq_amended cwd a host, ih]

/-! ### Allowlist-loading lemmas -/

theorem normalizePaths_foldl_ne_nil (cwd : List Char) :
    ∀ (paths acc : List (List Char)),
      (acc ≠ [] ∨ ∃ p ∈ paths, p ≠ []) →
      List.foldl (normalizePathsStep cwd) acc paths ≠ [] := by
  intro paths
  induction paths with
  | nil =>
    intro acc hacc
    rcases hacc with h | h
    · simpa using h
    · simp at h
  | cons p rest ih =>
    intro acc hacc
    simp only [List.foldl_cons]
    by_cases hp : p = []
    · refine ih (normalizePathsStep cwd acc p) ?_
      simp only [normalizePathsStep, if_pos hp]
      rcases hacc with h | h
      · exact Or.inl h
      · rcases h with ⟨q, hq, hqne⟩
        rcases List.mem_cons.mp hq with rfl | hq2
        · exact absurd hp hqne
        · exact Or.inr ⟨q, hq2, hqne⟩
    · refine ih (normalizePathsStep cwd acc p) (Or.inl ?_)
      simp only [normalizePathsStep, if_neg hp]
      split
      · rename_i hmem
        exact List.ne_nil_of_mem hmem
      · simp

theorem normalizePaths_ne_nil (cwd : List Char) (paths : List (List Char))
    (h : ∃ p ∈ paths, p ≠ []) : normalizePaths cwd paths ≠ [] :=
  normalizePaths_foldl_ne_nil cwd paths [] (Or.inr h)

theorem normalizePaths_foldl_mem (cwd : List Char) :
    ∀ (paths acc : List (List Char)) (q : List Char),
      q ∈ List.foldl (normalizePathsStep cwd) acc paths →
      q ∈ acc ∨ ∃ p ∈ paths, q = resolvePath cwd p := by
  intro paths
  induction paths with
  | nil =>
    intro acc q hq
    exact Or.inl hq
  | cons p rest ih =>
    intro acc q hq
    simp only [List.foldl_cons] at hq
    rcases ih (normalizePathsStep cwd acc p) q hq with hmem | hex
    · unfold normalizePathsStep at hmem
      split at hmem
      · exact Or.inl hmem
      · split at hmem
        · exact Or.inl hmem
        · rcases List.mem_append.mp hmem with h1 | h2
          · exact Or.inl h1
          · simp at h2
            exact Or.inr ⟨p, List.mem_cons_self _ _, h2⟩
    · rcases hex with ⟨r, hr, hrq⟩
      exact Or.inr ⟨r, List.mem_cons_of_mem _ hr, hrq⟩

theorem normalizePaths_foldl_nodup (cwd : List Char) :
    ∀ (paths acc : List (List Char)), acc.Nodup →
      (List.foldl (normalizePathsStep cwd) acc paths).Nodup := by
  intro paths
  induction paths with
  | nil => intro acc h; exact h
  | cons p rest ih =>
    intro acc hacc
    simp only [List.foldl_cons]
    refine ih _ ?_
    unfold normalizePathsStep
    split
    · exact hacc
    · split
      · exact hacc
      · rename_i hnm
        simpa [List.nodup_append] using ⟨hacc, hnm⟩

theorem normalizePaths_foldl_fixed (cwd : List Char) :
    ∀ (l acc : List (List Char)),
      (∀ q ∈ l, q ≠ [] ∧ resolvePath cwd q = q ∧ q ∉ acc) → l.Nodup →
      List.foldl (normalizePathsStep cwd) acc l = acc ++ l := by
  intro l
  induction l with
  | nil => intro acc _ _; simp
  | cons q rest ih =>
    intro acc hgood hnd
    have hq := hgood q (List.mem_cons_self _ _)
    simp only [List.foldl_cons]
    have hstep : normalizePathsStep cwd acc q = acc ++ [q] := by
      unfold normalizePathsStep
      rw [if_neg hq.1, hq.2.1, if_neg hq.2.2]
    rw [hstep]
    rw [ih (acc ++ [q]) ?_ (List.Nodup.of_cons hnd)]
    · simp
    · intro r hr
      have hrg := hgood r (List.mem_cons_of_mem _ hr)
      refine ⟨hrg.1, hrg.2.1, ?_⟩
      intro hcon
      rcases List.mem_append.mp hcon with h1 | h2
      · exact hrg.2.2 h1
      · simp at h2
        subst h2
        exact (List.nodup_cons.mp hnd).1 hr

theorem normalizePaths_idem (cwd : List Char) (paths : List (List Char)) :
    normalizePaths cwd (normalizePaths cwd paths) = normalizePaths cwd paths := by
  unfold normalizePaths
  rw [normalizePaths_foldl_fixed cwd (List.foldl (normalizePathsStep cwd) [] paths) []]
  · simp
  · intro q hq
    rcases normalizePaths_foldl_mem cwd paths [] q hq with h | ⟨p, _, rfl⟩
    · simp at h
    · refine ⟨by simp [resolvePath], resolvePath_idem cwd p, by simp⟩
  · exact normalizePaths_foldl_nodup cwd paths [] (List.nodup_nil)

/-- C7: `loadMountAllowlist(path, fallback)` returns the (normalized)
fallback whenever the file is missing, whenever reading/parsing throws, and
whenever the parsed array or `{paths: [...]}` object yields an empty
normalized path list; `{"paths": []}` (and a parse failure) over the default
allowlist yields exactly the default allowlist; and whenever the fallback
contains a usable (non-empty) path the function never returns an empty
list, for any file content. -/
theorem loadMountAllowlist_falls_back (cwd : List Char) (fb : List (List Char)) :
    loadMountAllowlist cwd none fb = normalizePaths cwd fb ∧
    loadMountAllowlist cwd (some (Except.error ())) fb = normalizePaths cwd fb ∧
    (∀ elems, normalizePaths cwd (jsonStringEntries elems) = [] →
        loadMountAllowlist cwd (some (Except.ok (Json.arr elems))) fb =
          normalizePaths cwd fb) ∧
    (∀ fields elems, lookupField fields ("paths".toList) = some (Json.arr elems) →
        normalizePaths cwd (jsonStringEntries elems) = [] →
        loadMountAllowlist cwd (some (Except.ok (Json.obj fields))) fb =
          normalizePaths cwd fb) ∧
    (∀ pr gd,
        loadMountAllowlist cwd
            (some (Except.ok (Json.obj [("paths".toList, Json.arr [])])))
            (getDefaultAllowlist cwd pr gd) =
          getDefaultAllowlist cwd pr gd) ∧
    (∀ pr gd,
        loadMountAllowlist cwd (some (Except.error ()))
            (getDefaultAllowlist cwd pr gd) =
          getDefaultAllowlist cwd pr gd) ∧
    (∀ file, (∃ p ∈ fb, p ≠ []) → loadMountAllowlist cwd file fb ≠ []) := by
  refine ⟨rfl, rfl, ?_, ?_, ?_, ?_, ?_⟩
  · intro elems hempty
    simp [loadMountAllowlist, hempty]
  · intro fields elems hlook hempty
    show (match lookupField fields ("paths".toList) with
      | some (Json.arr es) =>
        if (normalizePaths cwd (jsonStringEntries es)).length > 0 then
          normalizePaths cwd (jsonStringEntries es)
        else normalizePaths cwd fb
      | some _ => normalizePaths cwd fb
      | none => normalizePaths cwd fb) = normalizePaths cwd fb
    rw [hlook]
    simp [hempty]
  · intro pr gd
    have hlook : lookupField [("paths".toList, Json.arr [])] ("paths".toList) =
        some (Json.arr []) := by
      simp [lookupField]
    simp only [loadMountAllowlist, hlook]
    have hempty : normalizePaths cwd (jsonStringEntries []) = [] := rfl
    simp only [hempty, List.length_nil, gt_iff_lt, Nat.lt_irrefl, if_false]
    exact normalizePaths_idem cwd [pr, gd]
  · intro pr gd
    exact normalizePaths_idem cwd [pr, gd]
  · intro file hfb
    have hfallback : normalizePaths cwd fb ≠ [] := normalizePaths_ne_nil cwd fb hfb
    rcases file with _ | e
    · exact hfallback
    rcases e with _ | j
    · exact hfallback
    cases j with
    | null => exact hfallback
    | bool b => exact hfallback
    | num n => exact hfallback
    | str s => exact hfallback
    | arr elems =>
      simp only [loadMountAllowlist]
      split
      · rename_i hlen
        intro hcon
        rw [hcon] at hlen
        simp at hlen
      · exact hfallback
    | obj fields =>
      show (match lookupField fields ("paths".toList) with
        | some (Json.arr es) =>
          if (normalizePaths cwd (jsonStringEntries es)).length > 0 then
            normalizePaths cwd (jsonStringEntries es)
          else normalizePaths cwd fb
        | some _ => normalizePaths cwd fb
        | none => normalizePaths cwd fb) ≠ []
      cases hlook : lookupField fields ("paths".toList) with
      | none => exact hfallback
      | some j2 =>
        cases j2 with
        | arr elems =>
          by_cases hc : (normalizePaths cwd (jsonStringEntries elems)).length > 0
          · show (if (normalizePaths cwd (jsonStringEntries elems)).length > 0 then
                normalizePaths cwd (jsonStringEntries elems)
              else normalizePaths cwd fb) ≠ []
            rw [if_pos hc]
            intro hcon
            rw [hcon] at hc
            simp at hc
          · show (if (normalizePaths cwd (jsonStringEntries elems)).length > 0 then
                normalizePaths cwd (jsonStringEntries elems)
              else normalizePaths cwd fb) ≠ []
            rw [if_neg hc]
            exact hfallback
        | null => exact hfallback
        | bool b => exact hfallback
        | num n => exact hfallback
        | str s => exact hfallback
        | obj f2 => exact hfallback

/-! ### GroupQueue single-flight lemmas -/

theorem drainWaitingAux_spec (maxc : Nat) :
    ∀ (w : List String) (gs : String → GState) (cnt : Nat) (L : List String),
      w.Nodup →
      (∀ g ∈ w, (gs g).active = false) →
      L.Nodup →
      cnt = L.length →
      (∀ g, ((gs g).active = true ↔ g ∈ L)) →
      (∀ g, (gs g).inflight = if g ∈ L then 1 else 0) →
      ∃ L2 : List String,
        L2.Nodup ∧
        (drainWaitingAux maxc gs cnt w).2.1 = L2.length ∧
        (∀ g, (((drainWaitingAux maxc gs cnt w).1 g).active = true ↔ g ∈ L2)) ∧
        (∀ g, ((drainWaitingAux maxc gs cnt w).1 g).inflight =
          if g ∈ L2 then 1 else 0) ∧
        (drainWaitingAux maxc gs cnt w).2.2.1.Nodup ∧
        (∀ g ∈ (drainWaitingAux maxc gs cnt w).2.2.1,
          ((drainWaitingAux maxc gs cnt w).1 g).active = false) ∧
        ((drainWaitingAux maxc gs cnt w).2.2.1 ≠ [] →
          maxc ≤ (drainWaitingAux maxc gs cnt w).2.1) ∧
        (∀ p ∈ (drainWaitingAux maxc gs cnt w).2.2.2, p.2 = false) := by
  intro w
  induction w with
  | nil =>
    intro gs cnt L hwnd hwact hLnd hcnt hiff hinf
    refine ⟨L, hLnd, hcnt, hiff, hinf, ?_, ?_, ?_, ?_⟩ <;> simp [drainWaitingAux]
  | cons g rest ih =>
    intro gs cnt L hwnd hwact hLnd hcnt hiff hinf
    by_cases hcap : cnt < maxc
    · have hgact : (gs g).active = false := hwact g (List.mem_cons_self _ _)
      by_cases hpend : (gs g).pendingMessages
      · have hgL : g ∉ L := by
          intro hmem
          have := (hiff g).mpr hmem
          rw [hgact] at this
          cases this
        have hginf : (gs g).inflight = 0 := by
          rw [hinf g, if_neg hgL]
        have hrec := ih (updG gs g (startG (gs g))) (cnt + 1) (g :: L)
          (List.Nodup.of_cons hwnd)
          (fun h hh => by
            have hne : h ≠ g := by
              intro hcon
              subst hcon
              exact (List.nodup_cons.mp hwnd).1 hh
            rw [updG_other _ _ _ _ hne]
            exact hwact h (List.mem_cons_of_mem _ hh))
          (List.nodup_cons.mpr ⟨hgL, hLnd⟩)
          (by simp [hcnt])
          (fun h => by
            by_cases hne : h = g
            · subst hne
              rw [updG_same]
              simp [startG]
            · rw [updG_other _ _ _ _ hne]
              rw [hiff h]
              simp [hne]
          )
          (fun h => by
            by_cases hne : h = g
            · subst hne
              rw [updG_same]
              simp [startG, hginf]
            · rw [updG_other _ _ _ _ hne]
              rw [hinf h]
              simp [hne]
          )
        obtain ⟨L2, hL2⟩ := hrec
        refine ⟨L2, ?_⟩
        have hunfold : drainWaitingAux maxc gs cnt (g :: rest) =
            ((drainWaitingAux maxc (updG gs g (startG (gs g))) (cnt + 1) rest).1,
              (drainWaitingAux maxc (updG gs g (startG (gs g))) (cnt + 1) rest).2.1,
              (drainWaitingAux maxc (updG gs g (startG (gs g))) (cnt + 1) rest).2.2.1,
              (g, (gs g).active) ::
                (drainWaitingAux maxc (updG gs g (startG (gs g))) (cnt + 1) rest).2.2.2) := by
          simp [drainWaitingAux, hcap, hpend]
        rw [hunfold]
        refine ⟨hL2.1, hL2.2.1, hL2.2.2.1, hL2.2.2.2.1, hL2.2.2.2.2.1,
          hL2.2.2.2.2.2.1, hL2.2.2.2.2.2.2.1, ?_⟩
        intro p hp
        simp only [List.mem_cons] at hp
        rcases hp with rfl | hp
        · exact hgact
        · exact hL2.2.2.2.2.2.2.2 p hp
      · have hrec := ih gs cnt L (List.Nodup.of_cons hwnd)
          (fun h hh => hwact h (List.mem_cons_of_mem _ hh))
          hLnd hcnt hiff hinf
        obtain ⟨L2, hL2⟩ := hrec
        refine ⟨L2, ?_⟩
        have hunfold : drainWaitingAux maxc gs cnt (g :: rest) =
            drainWaitingAux maxc gs cnt rest := by
          simp [drainWaitingAux, hcap, hpend]
        rw [hunfold]
        exact hL2
    · refine ⟨L, hLnd, ?_⟩
      have hunfold : drainWaitingAux maxc gs cnt (g :: rest) =
          (gs, cnt, g :: rest, []) := by
        simp [drainWaitingAux, hcap]
      rw [hunfold]
      refine ⟨hcnt, hiff, hinf, hwnd, hwact, ?_, ?_⟩
      · intro _
        show maxc ≤ cnt
        omega
      · intro p hp
        simp at hp

theorem enqueueMessageCheck_preserves (maxc : Nat) (s : QueueState) (g : String)
    (h : QInv maxc s) :
    QInv maxc (enqueueMessageCheck maxc s g).1 ∧
    ∀ p ∈ (enqueueMessageCheck maxc s g).2, p.2 = false := by
  obtain ⟨hnd, hact, hcap, L, hLnd, hcnt, hiff, hinf⟩ := h
  by_cases hgact : (s.groups g).active = true
  · have hunf : enqueueMessageCheck maxc s g =
        ({ s with groups := updG s.groups g (pendG (s.groups g)) }, []) := by
      simp [enqueueMessageCheck, hgact]
    rw [hunf]
    refine ⟨⟨hnd, ?_, hcap, L, hLnd, hcnt, ?_, ?_⟩, by simp⟩
    · intro x hx
      show (updG s.groups g (pendG (s.groups g)) x).active = false
      by_cases hne : x = g
      · subst hne
        exact absurd hgact (by simp [hact x hx])
      · rw [updG_other _ _ _ _ hne]
        exact hact x hx
    · intro x
      show ((updG s.groups g (pendG (s.groups g)) x).active = true ↔ x ∈ L)
      by_cases hne : x = g
      · subst hne
        rw [updG_same]
        exact hiff x
      · rw [updG_other _ _ _ _ hne]
        exact hiff x
    · intro x
      show (updG s.groups g (pendG (s.groups g)) x).inflight = if x ∈ L then 1 else 0
      by_cases hne : x = g
      · subst hne
        rw [updG_same]
        exact hinf x
      · rw [updG_other _ _ _ _ hne]
        exact hinf x
  · by_cases hceil : maxc ≤ s.activeCount
    · have hunf : enqueueMessageCheck maxc s g = ({ s with groups := updG s.groups g (pendG (s.groups g)), waitingGroups := if g ∈ s.waitingGroups then s.waitingGroups else s.waitingGroups ++ [g] }, []) := by
        simp [enqueueMessageCheck, hgact, hceil]
      rw [hunf]
      refine ⟨⟨?_, ?_, ?_, L, hLnd, hcnt, ?_, ?_⟩, by simp⟩
      · show (if g ∈ s.waitingGroups then s.waitingGroups else s.waitingGroups ++ [g]).Nodup
        split
        · exact hnd
        · rename_i hgw
          simp [List.nodup_append, hnd, hgw]
      · intro x hx
        have hx2 : x ∈ s.waitingGroups ∨ x = g := by
          have hx' : x ∈ (if g ∈ s.waitingGroups then s.waitingGroups else s.waitingGroups ++ [g]) := hx
          split at hx'
          · exact Or.inl hx'
          · rcases List.mem_append.mp hx' with h1 | h2
            · exact Or.inl h1
            · simp at h2
              exact Or.inr h2
        show (updG s.groups g (pendG (s.groups g)) x).active = false
        by_cases hne : x = g
        · subst hne
          rw [updG_same]
          show (s.groups x).active = false
          simpa using (Bool.not_eq_true _).mp hgact
        · rw [updG_other _ _ _ _ hne]
          rcases hx2 with h1 | h2
          · exact hact x h1
          · exact absurd h2 hne
      · intro _
        exact hceil
      · intro x
        show ((updG s.groups g (pendG (s.groups g)) x).active = true ↔ x ∈ L)
        by_cases hne : x = g
        · subst hne
          rw [updG_same]
          exact hiff x
        · rw [updG_other _ _ _ _ hne]
          exact hiff x
      · intro x
        show (updG s.groups g (pendG (s.groups g)) x).inflight = if x ∈ L then 1 else 0
        by_cases hne : x = g
        · subst hne
          rw [updG_same]
          exact hinf x
        · rw [updG_other _ _ _ _ hne]
          exact hinf x
    · have hwempty : s.waitingGroups = [] := by
        by_contra hcon
        exact hceil (hcap hcon)
      have hunf : enqueueMessageCheck maxc s g = ({ s with groups := updG s.groups g (startG (s.groups g)), activeCount := s.activeCount + 1 }, [(g, (s.groups g).active)]) := by
        simp [enqueueMessageCheck, hgact, hceil, startRun]
      rw [hunf]
      have hgL : g ∉ L := fun hm => hgact ((hiff g).mpr hm)
      constructor
      · refine ⟨hnd, ?_, ?_, g :: L, List.nodup_cons.mpr ⟨hgL, hLnd⟩, by simp [hcnt], ?_, ?_⟩
        · intro x hx
          have hx' : x ∈ s.waitingGroups := hx
          rw [hwempty] at hx'
          simp at hx'
        · intro hcon
          have hcon' : s.waitingGroups ≠ [] := hcon
          exact absurd hwempty hcon'
        · intro x
          show ((updG s.groups g (startG (s.groups g)) x).active = true ↔ x ∈ g :: L)
          by_cases hne : x = g
          · subst hne
            rw [updG_same]
            simp [startG]
          · rw [updG_other _ _ _ _ hne]
            rw [hiff x]
            simp [hne]
        · intro x
          show (updG s.groups g (startG (s.groups g)) x).inflight = if x ∈ g :: L then 1 else 0
          by_cases hne : x = g
          · subst hne
            rw [updG_same]
            have h0 : (s.groups x).inflight = 0 := by
              rw [hinf x, if_neg hgL]
            simp [startG, h0]
          · rw [updG_other _ _ _ _ hne]
            rw [hinf x]
            simp [hne]
      · intro p hp
        simp at hp
        rw [hp]
        show (s.groups g).active = false
        simpa using (Bool.not_eq_true _).mp hgact

theorem completeRun_preserves (maxc : Nat) (s : QueueState) (g : String) (ok : Bool)
    (h : QInv maxc s) :
    QInv maxc (completeRun maxc s g ok).1 ∧
    ∀ p ∈ (completeRun maxc s g ok).2, p.2 = false := by
  obtain ⟨hnd, hact, hcap, L, hLnd, hcnt, hiff, hinf⟩ := h
  by_cases hn0 : (s.groups g).inflight = 0
  · have hunf : completeRun maxc s g ok = (s, []) := by
      simp [completeRun, hn0]
    rw [hunf]
    exact ⟨⟨hnd, hact, hcap, L, hLnd, hcnt, hiff, hinf⟩, by simp⟩
  · have hgL : g ∈ L := by
      by_contra hcon
      exact hn0 (by rw [hinf g, if_neg hcon])
    have hgact : (s.groups g).active = true := (hiff g).mpr hgL
    have hinf1 : (s.groups g).inflight = 1 := by rw [hinf g, if_pos hgL]
    have hgnw : g ∉ s.waitingGroups := by
      intro hw
      have := hact g hw
      rw [hgact] at this
      cases this
    have hLpos : 1 ≤ L.length := List.length_pos.mpr (List.ne_nil_of_mem hgL)
    have hLelen : (L.erase g).length = L.length - 1 := List.length_erase_of_mem hgL
    have hgLe : g ∉ L.erase g := by
      intro hcon
      exact ((List.Nodup.mem_erase_iff hLnd).mp hcon).1 rfl
    have hmemLe : ∀ x, x ≠ g → (x ∈ L.erase g ↔ x ∈ L) := by
      intro x hx
      rw [List.Nodup.mem_erase_iff hLnd]
      simp [hx]
    by_cases hpend : (s.groups g).pendingMessages = true
    · have hunf : completeRun maxc s g ok = ({ groups := updG (updG s.groups g (finishG (s.groups g) (if ok then 0 else (scheduleRetry (s.groups g).retryCount).1))) g (startG (finishG (s.groups g) (if ok then 0 else (scheduleRetry (s.groups g).retryCount).1))), waitingGroups := s.waitingGroups, activeCount := (s.activeCount - 1) + 1 }, [(g, false)]) := by
        simp [completeRun, hn0, finishG_pendingMessages, hpend, finishG_active]
      rw [hunf]
      constructor
      · refine ⟨hnd, ?_, ?_, g :: L.erase g, List.nodup_cons.mpr ⟨hgLe, List.Nodup.erase g hLnd⟩, ?_, ?_, ?_⟩
        · intro x hx
          have hx' : x ∈ s.waitingGroups := hx
          have hne : x ≠ g := fun hc => hgnw (hc ▸ hx')
          show (updG (updG s.groups g (finishG (s.groups g) (if ok then 0 else (scheduleRetry (s.groups g).retryCount).1))) g (startG (finishG (s.groups g) (if ok then 0 else (scheduleRetry (s.groups g).retryCount).1))) x).active = false
          rw [updG_other _ _ _ _ hne, updG_other _ _ _ _ hne]
          exact hact x hx'
        · intro hcon
          have hcon' : s.waitingGroups ≠ [] := hcon
          have := hcap hcon'
          show maxc ≤ (s.activeCount - 1) + 1
          omega
        · show (s.activeCount - 1) + 1 = (g :: L.erase g).length
          simp only [List.length_cons, hLelen]
          omega
        · intro x
          show ((updG (updG s.groups g (finishG (s.groups g) (if ok then 0 else (scheduleRetry (s.groups g).retryCount).1))) g (startG (finishG (s.groups g) (if ok then 0 else (scheduleRetry (s.groups g).retryCount).1))) x).active = true ↔ x ∈ g :: L.erase g)
          by_cases hne : x = g
          · subst hne
            rw [updG_same]
            simp [startG_active]
          · rw [updG_other _ _ _ _ hne, updG_other _ _ _ _ hne]
            rw [hiff x]
            simp only [List.mem_cons, hmemLe x hne]
            constructor
            · intro hm; exact Or.inr hm
            · intro hm
              rcases hm with hm | hm
              · exact absurd hm hne
              · exact hm
        · intro x
          show (updG (updG s.groups g (finishG (s.groups g) (if ok then 0 else (scheduleRetry (s.groups g).retryCount).1))) g (startG (finishG (s.groups g) (if ok then 0 else (scheduleRetry (s.groups g).retryCount).1))) x).inflight = if x ∈ g :: L.erase g then 1 else 0
          by_cases hne : x = g
          · subst hne
            rw [updG_same]
            rw [startG_inflight, finishG_inflight, hinf1]
            simp
          · rw [updG_other _ _ _ _ hne, updG_other _ _ _ _ hne]
            rw [hinf x]
            by_cases hxL : x ∈ L
            · rw [if_pos hxL, if_pos (by simp [List.mem_cons, (hmemLe x hne).mpr hxL])]
            · rw [if_neg hxL, if_neg ?hnm]
              case hnm =>
                intro hc
                rcases List.mem_cons.mp hc with hc1 | hc2
                · exact hne hc1
                · exact hxL ((hmemLe x hne).mp hc2)
      · intro p hp
        simp at hp
        rw [hp]
    · have hdrain := drainWaitingAux_spec maxc s.waitingGroups
        (updG s.groups g (finishG (s.groups g) (if ok then 0 else (scheduleRetry (s.groups g).retryCount).1)))
        (s.activeCount - 1) (L.erase g)
        hnd
        (fun x hx => by
          by_cases hne : x = g
          · subst hne
            rw [updG_same]
            exact finishG_active _ _
          · rw [updG_other _ _ _ _ hne]
            exact hact x hx)
        (List.Nodup.erase g hLnd)
        (by rw [hLelen]; omega)
        (fun x => by
          by_cases hne : x = g
          · subst hne
            rw [updG_same]
            simp [finishG_active, hgLe]
          · rw [updG_other _ _ _ _ hne]
            rw [hiff x, hmemLe x hne]
        )
        (fun x => by
          by_cases hne : x = g
          · subst hne
            rw [updG_same, finishG_inflight, hinf1]
            simp [hgLe]
          · rw [updG_other _ _ _ _ hne]
            rw [hinf x]
            by_cases hxL : x ∈ L
            · rw [if_pos hxL, if_pos ((hmemLe x hne).mpr hxL)]
            · rw [if_neg hxL, if_neg (fun hc => hxL ((hmemLe x hne).mp hc))]
        )
      obtain ⟨L2, hL2nd, hL2cnt, hL2iff, hL2inf, hL2wnd, hL2wact, hL2cap, hL2inv⟩ := hdrain
      have hunf : completeRun maxc s g ok = ({ groups := (drainWaitingAux maxc (updG s.groups g (finishG (s.groups g) (if ok then 0 else (scheduleRetry (s.groups g).retryCount).1))) (s.activeCount - 1) s.waitingGroups).1, waitingGroups := (drainWaitingAux maxc (updG s.groups g (finishG (s.groups g) (if ok then 0 else (scheduleRetry (s.groups g).retryCount).1))) (s.activeCount - 1) s.waitingGroups).2.2.1, activeCount := (drainWaitingAux maxc (updG s.groups g (finishG (s.groups g) (if ok then 0 else (scheduleRetry (s.groups g).retryCount).1))) (s.activeCount - 1) s.waitingGroups).2.1 }, (drainWaitingAux maxc (updG s.groups g (finishG (s.groups g) (if ok then 0 else (scheduleRetry (s.groups g).retryCount).1))) (s.activeCount - 1) s.waitingGroups).2.2.2) := by
        simp [completeRun, hn0, finishG_pendingMessages, hpend]
      rw [hunf]
      exact ⟨⟨hL2wnd, hL2wact, hL2cap, L2, hL2nd, hL2cnt, hL2iff, hL2inf⟩, hL2inv⟩

theorem initQueue_inv (maxc : Nat) : QInv maxc initQueue := by
  refine ⟨List.nodup_nil, ?_, ?_, [], List.nodup_nil, rfl, ?_, ?_⟩
  · intro g hg
    simp [initQueue] at hg
  · intro hcon
    simp [initQueue] at hcon
  · intro g
    simp [initQueue]
  · intro g
    simp [initQueue]

theorem queueRun_safe (maxc : Nat) :
    ∀ (evs : List QueueEvent) (s : QueueState), QInv maxc s →
      QInv maxc (queueRun maxc s evs).1 ∧
      ∀ p ∈ (queueRun maxc s evs).2, p.2 = false := by
  intro evs
  induction evs with
  | nil =>
    intro s h
    exact ⟨h, by simp [queueRun]⟩
  | cons e es ih =>
    intro s h
    have hstep : QInv maxc (queueStep maxc s e).1 ∧
        ∀ p ∈ (queueStep maxc s e).2, p.2 = false := by
      cases e with
      | enqueue g => exact enqueueMessageCheck_preserves maxc s g h
      | complete g ok => exact completeRun_preserves maxc s g ok h
    have hrec := ih (queueStep maxc s e).1 hstep.1
    constructor
    · show QInv maxc (queueRun maxc s (e :: es)).1
      simp only [queueRun]
      exact hrec.1
    · intro p hp
      simp only [queueRun] at hp
      rcases List.mem_append.mp hp with h1 | h2
      · exact hstep.2 p h1
      · exact hrec.2 p h2

/-- C1: single-flight per group.  First, a call of `enqueueMessageCheck`
while the group's state is active only sets the pending flag and returns,
invoking no run.  Second, over every event trace from the initial state
(arbitrary interleavings of enqueues and run completions, hence also the
retry and drain paths), every invocation of `runForGroup` happens for a
group whose `state.active` is false at that moment — `runForGroup` is never
re-entered for a group whose run is still active. -/
theorem singleFlight :
    (∀ (maxc : Nat) (s : QueueState) (g : String), (s.groups g).active = true →
        enqueueMessageCheck maxc s g =
          ({ s with groups := updG s.groups g (pendG (s.groups g)) }, [])) ∧
    (∀ (maxc : Nat) (evs : List QueueEvent),
        ∀ p ∈ (queueRun maxc initQueue evs).2, p.2 = false) := by
  constructor
  · intro maxc s g hpos
    simp [enqueueMessageCheck, hpos]
  · intro maxc evs p hp
    exact (queueRun_safe maxc evs initQueue (initQueue_inv maxc)).2 p hp

/-- Closed witness for `singleFlight`: an enqueue against a running group
only sets the pending flag, and in the concrete trace `[enqueue "b"]` the
one `runForGroup` invocation happens with `active = false`. -/
theorem singleFlight_witness :
    ((activeQueueState.groups "a").active = true) ∧
    enqueueMessageCheck 5 activeQueueState "a" =
      ({ activeQueueState with groups := updG activeQueueState.groups "a" (pendG (activeQueueState.groups "a")) }, []) ∧
    ("b", false) ∈ (queueRun 5 initQueue [QueueEvent.enqueue "b"]).2 ∧
    (("b", false) : Invocation).2 = false :=
  ⟨rfl, singleFlight.1 5 activeQueueState "a" rfl, by decide,
    singleFlight.2 5 [QueueEvent.enqueue "b"] ("b", false) (by decide)⟩

/-- C3: cross-group IPC mutations are applied only from the main namespace
or to the origin's own group.  For one parsed request file from a non-main
origin whose explicit target does not resolve to the origin's own group,
the request is rejected with no mutation applied: no message is sent, no
task is created or changed, no group registration changes and no metadata
refresh happens — the world is unchanged. -/
theorem ipc_cross_group_rejected :
    (∀ (an : String) (w : IpcWorld) (data : MessageIPCRequest) (sg : String),
        messageTargetsOwnGroup w data sg = false →
        processMessageFile an data sg false w = w) ∧
    (∀ (cnr : String → String → Option String) (nid : Int) (w : IpcWorld)
        (data : TaskIPCRequest) (sg : String),
        taskTargetsOwnGroup w data sg = false →
        processTaskIpc cnr nid data sg false w = w) := by
  constructor
  · intro an w data sg hTO
    simp only [messageTargetsOwnGroup] at hTO
    simp only [processMessageFile, Bool.false_or]
    rw [hTO]
    simp
  · intro cnr nid w data sg hTO
    by_cases h1 : (data.type == "schedule_task") = true
    · simp only [taskTargetsOwnGroup, h1, if_true] at hTO
      by_cases h2 : truthy data.targetJid = true
      · rw [if_pos h2] at hTO
        obtain ⟨t, ht⟩ : ∃ t, data.targetJid = some t := by
          cases hdt : data.targetJid with
          | none => rw [hdt] at h2; simp [truthy] at h2
          | some t => exact ⟨t, rfl⟩
        rw [ht] at hTO h2
        have htne : ¬ (t = "") := by
          intro hc
          subst hc
          have hfalse : truthy (some "") = false := by decide
          rw [hfalse] at h2
          cases h2
        simp only [Option.getD_some] at hTO
        simp only [processTaskIpc, h1, if_true, ht, h2, Option.getD_some]
        by_cases h3 : (truthy data.prompt && truthy data.schedule_type &&
            truthy data.schedule_value) = true
        · rw [h3]
          simp only [Bool.not_true, Bool.false_eq_true, if_false]
          have hbeq : (t == "") = false := by
            simp [htne]
          rw [hbeq]
          simp only [Bool.false_eq_true, if_false]
          cases hlg : lookupGroup w t with
          | none => rfl
          | some tg =>
            have hf : (tg.folder == sg) = false := by
              rw [hlg] at hTO
              exact hTO
            simp [hf]
        · have h3f : (truthy data.prompt && truthy data.schedule_type &&
              truthy data.schedule_value) = false := by
            exact Bool.not_eq_true _ ▸ (Bool.eq_false_iff.mpr h3)
          rw [h3f]
          simp
      · rw [if_neg h2] at hTO
        cases hTO
    · have h1f : (data.type == "schedule_task") = false := Bool.eq_false_iff.mpr h1
      by_cases h4 : (data.type == "pause_task" || data.type == "resume_task" ||
          data.type == "cancel_task" || data.type == "update_task") = true
      · simp only [taskTargetsOwnGroup, h1f, Bool.false_eq_true, if_false, h4, if_true] at hTO
        simp only [processTaskIpc, h1f, Bool.false_eq_true, if_false, h4, if_true]
        by_cases h5 : truthy data.taskId = true
        · rw [h5]
          simp only [Bool.not_true, Bool.false_eq_true, if_false]
          cases hp : jsParseInt (data.taskId.getD "") with
          | none => rfl
          | some tid =>
            show processTaskMutation cnr data sg false w tid = w
            have hTO2 : (match getTaskById w tid with
                | some task => task.group_folder == sg
                | none => false) = false := by
              rw [hp] at hTO
              exact hTO
            unfold processTaskMutation
            cases hg : getTaskById w tid with
            | none => rfl
            | some task =>
              have hf : (task.group_folder == sg) = false := by
                rw [hg] at hTO2
                exact hTO2
              simp [hf]
        · have h5f : truthy data.taskId = false := Bool.eq_false_iff.mpr h5
          rw [h5f]
          simp
      · have h4f : (data.type == "pause_task" || data.type == "resume_task" ||
            data.type == "cancel_task" || data.type == "update_task") = false :=
          Bool.eq_false_iff.mpr h4
        simp only [processTaskIpc, h1f, Bool.false_eq_true, if_false, h4f]
        by_cases h6 : (data.type == "refresh_groups") = true
        · simp [h6]
        · have h6f : (data.type == "refresh_groups") = false := Bool.eq_false_iff.mpr h6
          simp only [h6f, Bool.false_eq_true, if_false]
          by_cases h7 : (data.type == "register_group") = true
          · simp [h7]
          · have h7f : (data.type == "register_group") = false := Bool.eq_false_iff.mpr h7
            simp only [h7f, Bool.false_eq_true, if_false]
            by_cases h8 : (data.type == "remove_group") = true
            · simp [h8]
            · have h8f : (data.type == "remove_group") = false := Bool.eq_false_iff.mpr h8
              simp [h8f]

/-- Closed witness for `ipc_cross_group_rejected`: origin `f1` tries to
message `f2`'s chat and to pause `f2`'s task; both are rejected with the
world unchanged. -/
theorem ipc_cross_group_rejected_witness :
    (messageTargetsOwnGroup ipcExampleWorld ipcExampleMessage "f1" = false ∧
      taskTargetsOwnGroup ipcExampleWorld ipcExampleTask "f1" = false) ∧
    processMessageFile "Baby" ipcExampleMessage "f1" false ipcExampleWorld =
      ipcExampleWorld ∧
    processTaskIpc (fun _ _ => some "soon") 9 ipcExampleTask "f1" false ipcExampleWorld =
      ipcExampleWorld :=
  ⟨⟨by decide, by decide⟩,
    ipc_cross_group_rejected.1 "Baby" ipcExampleWorld ipcExampleMessage "f1" (by decide),
    ipc_cross_group_rejected.2 (fun _ _ => some "soon") 9 ipcExampleWorld
      ipcExampleTask "f1" (by decide)⟩

/-- C9 counterexample: the claim says both session operations return a
failure indicator when the group has no active run, but
`GroupQueue.closeStdin` is a `void` method (`group-queue.ts` 104): its
caller-visible return value for an inactive group (where nothing is
written) is identical to the one for an active group (where the `_close`
sentinel is written) — it carries no failure indication at all. -/
theorem closeStdin_no_failure_indicator :
    (closeStdin "data" initQueue.groups "g").2 = [] ∧
    (closeStdin "data" activeFolderGroups "g").2 ≠ [] ∧
    (closeStdin "data" initQueue.groups "g").1 = (closeStdin "data" activeFolderGroups "g").1 := by
  refine ⟨rfl, by decide, rfl⟩

/-- C9 (amended): when called for a group with no active run, neither
operation throws and neither performs any filesystem write;
`GroupQueue.sendMessage` additionally returns the failure indicator
`false`, while `GroupQueue.closeStdin` returns nothing (`void`) — it gives
the caller no failure indication. -/
theorem sessionOps_inactive_no_write (dataDir filename : String)
    (gs : String → GState) (g text : String) (h : (gs g).active = false) :
    sendMessage dataDir filename gs g text = (false, []) ∧
    closeStdin dataDir gs g = ((), []) := by
  constructor
  · cases hf : (gs g).groupFolder with
    | none => simp [sendMessage, hf]
    | some folder => simp [sendMessage, hf, h]
  · cases hf : (gs g).groupFolder with
    | none => simp [closeStdin, hf]
    | some folder => simp [closeStdin, hf, h]

/-- Closed witness for `sessionOps_inactive_no_write`: the initial group
map, whose groups are all inactive. -/
theorem sessionOps_inactive_no_write_witness :
    ((initQueue.groups "g").active = false) ∧
    (sendMessage "d" "f" initQueue.groups "g" "t" = (false, []) ∧
      closeStdin "d" initQueue.groups "g" = ((), [])) :=
  ⟨rfl, sessionOps_inactive_no_write "d" "f" initQueue.groups "g" "t" rfl⟩

/-- Closed witness for `loadMountAllowlist_falls_back`: an empty JSON array
and the fallback `["/a"]`. -/
theorem loadMountAllowlist_falls_back_witness :
    (normalizePaths "/".toList (jsonStringEntries []) = [] ∧
      (∃ p ∈ ["/a".toList], p ≠ ([] : List Char))) ∧
    loadMountAllowlist "/".toList (some (Except.ok (Json.arr []))) ["/a".toList] =
      normalizePaths "/".toList ["/a".toList] ∧
    loadMountAllowlist "/".toList none ["/a".toList] ≠ [] :=
  ⟨⟨rfl, by decide⟩,
    (loadMountAllowlist_falls_back "/".toList ["/a".toList]).2.2.1 [] rfl,
    (loadMountAllowlist_falls_back "/".toList ["/a".toList]).2.2.2.2.2.2 none
      (by decide)⟩

end BabyBot
